import Mathlib

/-!
Shallow embedding of the TensegritySim core (`data_structures.py`,
`tensegrity_solver.py`).

Modelling conventions:
* numpy float arrays are modelled by `List ℝ` (exact real arithmetic);
* a numpy vector of length `dim * |nodes|` that the solver mutates in
  place is modelled by a function `ℕ → ℝ` together with its intended
  index range;
* Python dictionaries (`pins`, the force mapping built by `set_forces`,
  `node_indices`) are modelled by association lists in insertion order,
  together with `Nodup` hypotheses where the dictionary-key uniqueness
  matters;
* Python `Tuple` / set-of-two-names entries of `surface.linked_nodes`
  (the YAML loader stores two-element Python sets) are modelled by
  `String × String` pairs compared as unordered `Finset String` doubletons;
* mutation of shared `Node` objects is modelled by rebuilding the node
  lists held by each `Connection` from the aggregate's node list whenever
  the aggregate writes positions (reference semantics: a connection always
  sees the current position of a node with a given name);
* the scipy nonlinear root finder called by `solve` is modelled by an
  oracle `List ℝ → Option (List ℝ)` mapping an initial guess to
  `some solution` on convergence and `none` on failure, and the Gaussian
  perturbation of the retry by an arbitrary noise vector.
-/

namespace TensegritySim

/-- Euclidean norm of a coordinate vector, `np.linalg.norm`. -/
noncomputable def norm2 (v : List ℝ) : ℝ :=
  Real.sqrt ((v.map (fun t => t ^ 2)).sum)

/-- Componentwise difference of two coordinate vectors (`numpy` subtraction). -/
def vsub (a b : List ℝ) : List ℝ := List.zipWith (fun x y => x - y) a b

/-- `Node` of `data_structures.py`: a name and a position vector. -/
structure Node where
  name : String
  position : List ℝ

instance : Inhabited Node := ⟨⟨"", []⟩⟩

/-- `Connection.ConnectionType` enum. -/
inductive ConnectionType where
  | STRING : ConnectionType
  | BAR : ConnectionType
  deriving DecidableEq, Repr

/-- `Connection` of `data_structures.py`.  `nodes` holds the (shared) node
objects of the chain; `force` starts out as `None`. -/
structure Connection where
  nodes : List Node
  nodes_original : List Node
  connection_type : ConnectionType
  stiffness : ℝ
  initial_length : ℝ
  force : Option ℝ
  name : Option String

/-- Membership test `{name1, name2} in linked_nodes` of the Python code:
the stored pair is compared with the queried pair as unordered sets. -/
def pairMem (linked : List (String × String)) (a b : String) : Bool :=
  linked.any fun p =>
    decide (({p.1, p.2} : Finset String) = ({a, b} : Finset String))

/-- Euclidean distance between the positions of two nodes,
`np.linalg.norm(node1.position - node2.position)`. -/
noncomputable def nodeDist (n1 n2 : Node) : ℝ :=
  norm2 (vsub n1.position n2.position)

namespace Connection

/-- `Connection.current_length`: walk the chain of consecutive node pairs,
skip a pair registered as linked (`continue`), otherwise accumulate the
Euclidean distance.  A `None` argument in Python defaults to the empty
list, so the model always takes a list. -/
noncomputable def current_length (c : Connection)
    (linked_nodes : List (String × String)) : ℝ :=
  (List.range (c.nodes.length - 1)).foldl
    (fun acc i =>
      if pairMem linked_nodes (c.nodes.getD i default).name
          (c.nodes.getD (i + 1) default).name then acc
      else acc + nodeDist (c.nodes.getD i default) (c.nodes.getD (i + 1) default))
    0

/-- `Connection.update_force`: `force = stiffness * (L - L0)`, clamped to
`max 0 _` for a STRING. -/
noncomputable def update_force (c : Connection) (cur : ℝ) : Connection :=
  let f := c.stiffness * (cur - c.initial_length)
  { c with force := some (if c.connection_type = ConnectionType.STRING then max 0 f else f) }

end Connection

instance : Inhabited Connection :=
  ⟨⟨[], [], ConnectionType.STRING, 0, 0, none, none⟩⟩

/-! ### Generic array-operation models -/

/-- `np.delete(xs, D)` for an index collection `D`, given as the membership
predicate of `D`: numpy builds a boolean mask, so only membership matters
(duplicated or unordered indices behave like a set). -/
def npDelete : (ℕ → Bool) → List ℝ → List ℝ
  | _, [] => []
  | p, y :: ys =>
    if p 0 then npDelete (fun i => p (i + 1)) ys
    else y :: npDelete (fun i => p (i + 1)) ys

/-- `np.insert(xs, i, v)`: insert `v` before position `i`.  numpy raises for
`i > len(xs)`; the model clamps to appending, a case the roundtrip theorems
never reach and the counterexample avoids. -/
def npInsert : ℕ → ℝ → List ℝ → List ℝ
  | 0, v, ys => v :: ys
  | _ + 1, v, [] => [v]
  | n + 1, v, y :: ys => y :: npInsert n v ys

/-- The sequential `for index, value in ins_index.items(): x = np.insert(x, index, value)`
loop of `_get_nodes_from_input`. -/
def reinsert (pairs : List (ℕ × ℝ)) (xs : List ℝ) : List ℝ :=
  pairs.foldl (fun acc pr => npInsert pr.1 pr.2 acc) xs

/-- Structural worker for `chunkList`, recursing on a fuel bound (any fuel
at least the list length gives the reshape; see `chunkAux_fuel`). -/
def chunkAux : ℕ → ℕ → List ℝ → List (List ℝ)
  | _, _, [] => []
  | 0, _, _ :: _ => []
  | _ + 1, 0, _ :: _ => []
  | fuel + 1, d + 1, y :: ys => (y :: ys.take d) :: chunkAux fuel (d + 1) (ys.drop d)

/-- `x.reshape(-1, d)`: cut a flat vector into rows of length `d`. -/
def chunkList (d : ℕ) (l : List ℝ) : List (List ℝ) :=
  chunkAux l.length d l

/-- In-place update of one list cell (`lst[k] = f(lst[k])` on a Python list
of object references). -/
def listUpdate {α : Type} : List α → ℕ → (α → α) → List α
  | [], _, _ => []
  | a :: as, 0, f => f a :: as
  | a :: as, n + 1, f => a :: listUpdate as n f

/-- `F[base:base+d] += v` on a vector modelled as a function. -/
def sliceAdd (d base : ℕ) (v : List ℝ) (F : ℕ → ℝ) : ℕ → ℝ :=
  fun j => if base ≤ j ∧ j < base + d then F j + v.getD (j - base) 0 else F j

/-- `F[base:base+d] = v` on a vector modelled as a function. -/
def sliceWrite (d base : ℕ) (v : List ℝ) (F : ℕ → ℝ) : ℕ → ℝ :=
  fun j => if base ≤ j ∧ j < base + d then v.getD (j - base) 0 else F j

/-- `F[k] = v` on a vector modelled as a function. -/
def updF (F : ℕ → ℝ) (k : ℕ) (v : ℝ) : ℕ → ℝ :=
  fun j => if j = k then v else F j

/-! ### Surface and Tensegrity -/

/-- The `shape` dictionary of `Surface`: a `surface_type` tag and the
`properties` mapping, of which only `radius` (the cylinder property) is
ever read. -/
structure SurfaceShape where
  surface_type : String
  radius : ℝ

/-- `Surface` of `data_structures.py`.  The YAML loader stores each linked
pair as a two-element Python set of node names; the model keeps the pair and
compares unordered (see `pairMem`). -/
structure Surface where
  shape : SurfaceShape
  linked_nodes : List (String × String)

/-- `Tensegrity` of `data_structures.py`.  `controls` holds references to
connection objects owned by `connections`; the model stores their indices
into `connections`.  `pins` is a dict in insertion order. -/
structure Tensegrity where
  nodes : List Node
  connections : List Connection
  pins : List (String × List Bool)
  controls : List ℕ
  surface : Option Surface
  control_starting_lengths : List ℝ

namespace Tensegrity

/-- `self.surface.linked_nodes if self.surface else None`, with `None`
defaulting to no linked pairs inside `current_length`. -/
def linkedOrEmpty (T : Tensegrity) : List (String × String) :=
  match T.surface with
  | some surf => surf.linked_nodes
  | none => []

/-- `Tensegrity.update_forces`: recompute every connection's force from the
current node positions. -/
noncomputable def update_forces (T : Tensegrity) : Tensegrity :=
  { T with connections :=
      T.connections.map (fun c => c.update_force (c.current_length T.linkedOrEmpty)) }

/-- `Tensegrity.__init__` (after the plain field assignments): snapshot the
controls' rest lengths, then refresh all forces.  The automatic `dim`
inference (2 / 2.5 / 3) is not modelled here; the solver takes its working
integer dimension explicitly. -/
noncomputable def construct (nodes : List Node) (connections : List Connection)
    (pins : List (String × List Bool)) (controls : List ℕ)
    (surface : Option Surface) : Tensegrity :=
  update_forces
    { nodes := nodes, connections := connections, pins := pins,
      controls := controls, surface := surface,
      control_starting_lengths :=
        controls.map (fun ci => (connections.getD ci default).initial_length) }

/-- `Tensegrity.change_control_lengths`: count check first (the ValueError
is raised before any mutation), then add each delta to the corresponding
control's rest length in registration order. -/
def change_control_lengths (T : Tensegrity) (delta_lengths : List ℝ) :
    Except String Tensegrity :=
  if delta_lengths.length ≠ T.controls.length then
    Except.error "Number of delta lengths must be equal to the number of control connections."
  else
    let cs1 :=
      (T.controls.zip delta_lengths).foldl
        (fun cs pr =>
          listUpdate cs pr.1 (fun c => { c with initial_length := c.initial_length + pr.2 }))
        T.connections
    Except.ok { T with connections := cs1 }

/-- `Tensegrity.reset_control_lengths`: write the snapshot back into every
control connection. -/
def reset_control_lengths (T : Tensegrity) : Tensegrity :=
  let cs1 :=
    (T.controls.zip T.control_starting_lengths).foldl
      (fun cs pr => listUpdate cs pr.1 (fun c => { c with initial_length := pr.2 }))
      T.connections
  { T with connections := cs1 }

end Tensegrity

/-! ### TensegritySolver -/

/-- The `node_indices` dict of `TensegritySolver.__init__` maps each node
name to its position in the node list (last occurrence wins in Python; for
the unique node names the data model requires, this is the unique index,
modelled as the first match). -/
def nodeIndexOf (nodes : List Node) (name : String) : ℕ :=
  nodes.findIdx (fun nd => nd.name == name)

/-- `TensegritySolver`: the tensegrity under optimization, the working
integer dimension (`tensegrity.dim`, with 2.5 mapped to 2), and the dense
external-force vector (initialized to zeros). -/
structure TensegritySolver where
  tensegrity : Tensegrity
  dim : ℕ
  forces : ℕ → ℝ

namespace TensegritySolver

/-- `self.node_indices[name]`. -/
def nodeIdx (S : TensegritySolver) (name : String) : ℕ :=
  nodeIndexOf S.tensegrity.nodes name

/-- The sequential body of `set_forces` after `self.forces` is zeroed:
validate and write each mapping entry in order, stopping at the first
entry whose force vector has the wrong dimension.  Returns the force
vector as mutated so far together with the raised error, if any. -/
def setForcesAux (S : TensegritySolver) :
    (ℕ → ℝ) → List (String × List ℝ) → (ℕ → ℝ) × Option String
  | F, [] => (F, none)
  | F, e :: rest =>
    if e.2.length ≠ S.dim then
      (F, some "Force vector must have the same dimension as the optimization problem.")
    else
      setForcesAux S (sliceWrite S.dim (S.nodeIdx e.1 * S.dim) e.2 F) rest

/-- `TensegritySolver.set_forces`: zero the whole force vector, then write
the given mapping entry by entry.  The second component is the raised
`ValueError`, if any; the first is the solver as left behind (the force
vector keeps whatever was written before the raise). -/
def set_forces (S : TensegritySolver) (forces : List (String × List ℝ)) :
    TensegritySolver × Option String :=
  let r := S.setForcesAux (fun _ => 0) forces
  ({ S with forces := r.1 }, r.2)

/-- `TensegritySolver._node_distance`: distance of two nodes read from the
row array `N`, zero for a surface-linked pair. -/
noncomputable def node_distance (S : TensegritySolver) (node1 node2 : String)
    (N : List (List ℝ)) : ℝ :=
  if (match S.tensegrity.surface with
      | some surf => pairMem surf.linked_nodes node1 node2
      | none => false) then 0
  else norm2 (vsub (N.getD (S.nodeIdx node1) []) (N.getD (S.nodeIdx node2) []))

/-- `TensegritySolver._connection_length`: chain length accumulated from
`_node_distance`. -/
noncomputable def connection_length (S : TensegritySolver) (c : Connection)
    (N : List (List ℝ)) : ℝ :=
  (List.range (c.nodes.length - 1)).foldl
    (fun acc i =>
      acc + S.node_distance (c.nodes.getD i default).name
        (c.nodes.getD (i + 1) default).name N)
    0

/-- The loop body of `TensegritySolver._length_derivative`: for a chain
segment of nonzero length, accumulate `(N1 - N2)/length` into node 1's
coordinate slots and `(N2 - N1)/length` into node 2's; a zero-length
segment is skipped (`continue`). -/
noncomputable def lengthDerivStep (S : TensegritySolver) (c : Connection)
    (N : List (List ℝ)) (dl : ℕ → ℝ) (i : ℕ) : ℕ → ℝ :=
  let i1 := S.nodeIdx (c.nodes.getD i default).name
  let i2 := S.nodeIdx (c.nodes.getD (i + 1) default).name
  let N1 := N.getD i1 []
  let N2 := N.getD i2 []
  let len := S.node_distance (c.nodes.getD i default).name
    (c.nodes.getD (i + 1) default).name N
  if len = 0 then dl
  else
    sliceAdd S.dim (i2 * S.dim) ((vsub N2 N1).map (fun t => t / len))
      (sliceAdd S.dim (i1 * S.dim) ((vsub N1 N2).map (fun t => t / len)) dl)

/-- `TensegritySolver._length_derivative`: fold `lengthDerivStep` over the
chain segments, starting from the zero vector. -/
noncomputable def length_derivative (S : TensegritySolver) (c : Connection)
    (N : List (List ℝ)) : ℕ → ℝ :=
  (List.range (c.nodes.length - 1)).foldl (S.lengthDerivStep c N) (fun _ => 0)

/-- The specified contribution of one chain segment to the length
derivative (spec, section 4.2 step 2): zero when the segment's two
endpoints coincide (length exactly zero, which includes linked seam
pairs); otherwise the difference vector toward the endpoint divided by
the segment length, placed at each endpoint's coordinate slots. -/
noncomputable def segmentContribution (S : TensegritySolver) (c : Connection)
    (N : List (List ℝ)) (i : ℕ) : ℕ → ℝ :=
  let i1 := S.nodeIdx (c.nodes.getD i default).name
  let i2 := S.nodeIdx (c.nodes.getD (i + 1) default).name
  let N1 := N.getD i1 []
  let N2 := N.getD i2 []
  let len := S.node_distance (c.nodes.getD i default).name
    (c.nodes.getD (i + 1) default).name N
  if len = 0 then fun _ => 0
  else fun j =>
    (if i1 * S.dim ≤ j ∧ j < i1 * S.dim + S.dim then
      ((vsub N1 N2).map (fun t => t / len)).getD (j - i1 * S.dim) 0 else 0) +
    (if i2 * S.dim ≤ j ∧ j < i2 * S.dim + S.dim then
      ((vsub N2 N1).map (fun t => t / len)).getD (j - i2 * S.dim) 0 else 0)

/-- `TensegritySolver._spring_connection_energy_derivative`:
`-k (L - L0) * dL/dq`, or the zero vector for a compressed STRING. -/
noncomputable def spring_connection_energy_derivative (S : TensegritySolver)
    (c : Connection) (N : List (List ℝ)) : ℕ → ℝ :=
  if c.connection_type = ConnectionType.STRING ∧
      S.connection_length c N < c.initial_length then fun _ => 0
  else fun j =>
    (-c.stiffness * (S.connection_length c N - c.initial_length)) *
      S.length_derivative c N j

/-- The pinned-coordinate indices
`[node_indices[node]*dim + i for node, bools in pins.items() for i in range(dim) if bools[i]]`,
in pins-dict insertion order (used both as the delete list of
`_create_initial_guess` and, with values, as `ins_index` of
`_get_nodes_from_input`). -/
def pinSlots (S : TensegritySolver) : List ℕ :=
  S.tensegrity.pins.flatMap (fun p =>
    ((List.range S.dim).filter (fun i => p.2.getD i false)).map
      (fun i => S.nodeIdx p.1 * S.dim + i))

/-- The `ins_index` dict of `_get_nodes_from_input`: pinned coordinate index
paired with the pinned node's current coordinate value, in pins-dict
insertion order. -/
def insPairs (S : TensegritySolver) : List (ℕ × ℝ) :=
  S.tensegrity.pins.flatMap (fun p =>
    ((List.range S.dim).filter (fun i => p.2.getD i false)).map
      (fun i => (S.nodeIdx p.1 * S.dim + i,
        (S.tensegrity.nodes.getD (S.nodeIdx p.1) default).position.getD i 0)))

/-- `TensegritySolver._create_initial_guess`: flatten the first `dim`
components of every node position, then delete the pinned entries. -/
def create_initial_guess (S : TensegritySolver) : List ℝ :=
  npDelete (fun j => S.pinSlots.contains j)
    (S.tensegrity.nodes.flatMap (fun nd => nd.position.take S.dim))

/-- `TensegritySolver._get_nodes_from_input`: re-insert the pinned values
one `np.insert` at a time in dict order, then reshape to rows of `dim`. -/
def get_nodes_from_input (S : TensegritySolver) (x : List ℝ) : List (List ℝ) :=
  chunkList S.dim (reinsert S.insPairs x)

/-- `TensegritySolver._surface_constraints` for a cylinder: per linked pair,
`y1 - y2` and `|x1 - x2| - 2 pi r`, in pair order; other surface types
append nothing. -/
noncomputable def surface_constraints (S : TensegritySolver) (x : List ℝ) : List ℝ :=
  match S.tensegrity.surface with
  | none => []
  | some surf =>
    if surf.shape.surface_type = "cylinder" then
      surf.linked_nodes.flatMap (fun pr =>
        [((S.get_nodes_from_input x).getD (S.nodeIdx pr.1) []).getD 1 0 -
            ((S.get_nodes_from_input x).getD (S.nodeIdx pr.2) []).getD 1 0,
          |((S.get_nodes_from_input x).getD (S.nodeIdx pr.1) []).getD 0 0 -
              ((S.get_nodes_from_input x).getD (S.nodeIdx pr.2) []).getD 0 0| -
            2 * Real.pi * surf.shape.radius])
    else []

/-- One iteration of the linked-pair loop of `_objective`, acting on the
pair (virtual-work vector, delete-index set): for the x axis, if either
seam coordinate is already deleted the partner's is deleted too, otherwise
node 2's x work row is folded into node 1's and node 2's x row is deleted;
then the same for the y axis. -/
def surfaceStep (S : TensegritySolver) (acc : (ℕ → ℝ) × Finset ℕ)
    (pr : String × String) : (ℕ → ℝ) × Finset ℕ :=
  let i1 := S.nodeIdx pr.1
  let i2 := S.nodeIdx pr.2
  let xacc : (ℕ → ℝ) × Finset ℕ :=
    if i1 * S.dim ∈ acc.2 then (acc.1, insert (i2 * S.dim) acc.2)
    else if i2 * S.dim ∈ acc.2 then (acc.1, insert (i1 * S.dim) acc.2)
    else (updF acc.1 (i1 * S.dim) (acc.1 (i1 * S.dim) + acc.1 (i2 * S.dim)),
      insert (i2 * S.dim) acc.2)
  if i1 * S.dim + 1 ∈ xacc.2 then (xacc.1, insert (i2 * S.dim + 1) xacc.2)
  else if i2 * S.dim + 1 ∈ xacc.2 then (xacc.1, insert (i1 * S.dim + 1) xacc.2)
  else (updF xacc.1 (i1 * S.dim + 1) (xacc.1 (i1 * S.dim + 1) + xacc.1 (i2 * S.dim + 1)),
    insert (i2 * S.dim + 1) xacc.2)

/-- The delete-index component of `surfaceStep`, on resolved node-index
pairs: it does not depend on the virtual-work values. -/
def dStep (dim : ℕ) (D : Finset ℕ) (pr : ℕ × ℕ) : Finset ℕ :=
  let D1 :=
    if pr.1 * dim ∈ D then insert (pr.2 * dim) D
    else if pr.2 * dim ∈ D then insert (pr.1 * dim) D
    else insert (pr.2 * dim) D
  if pr.1 * dim + 1 ∈ D1 then insert (pr.2 * dim + 1) D1
  else if pr.2 * dim + 1 ∈ D1 then insert (pr.1 * dim + 1) D1
  else insert (pr.2 * dim + 1) D1

/-- The full virtual-work vector built by `_objective` before any row
elimination: per coordinate, the sum of the spring energy derivatives of
all connections (over the node rows expanded from `x`) plus the external
force. -/
noncomputable def objectiveVW (S : TensegritySolver) (x : List ℝ) : ℕ → ℝ :=
  fun j =>
    ((S.tensegrity.connections.map
      (fun c => S.spring_connection_energy_derivative c (S.get_nodes_from_input x) j)).sum)
    + S.forces j

/-- `TensegritySolver._objective`: sum the spring energy derivatives of all
connections plus the external forces over the node rows expanded from `x`,
delete the pinned coordinate rows (a Python set, modelled as a `Finset`),
couple and delete the seam rows when a surface is present, and append the
surface constraints. -/
noncomputable def objective (S : TensegritySolver) (x : List ℝ) : List ℝ :=
  let D0 : Finset ℕ := S.pinSlots.toFinset
  match S.tensegrity.surface with
  | some surf =>
    let r := surf.linked_nodes.foldl S.surfaceStep (S.objectiveVW x, D0)
    (((List.range (S.dim * S.tensegrity.nodes.length)).filter
        (fun j => decide (j ∉ r.2))).map r.1) ++ S.surface_constraints x
  | none =>
    ((List.range (S.dim * S.tensegrity.nodes.length)).filter
      (fun j => decide (j ∉ D0))).map (S.objectiveVW x)

/-- The success path of `solve`: write the solution rows back into every
node's position.  Because connections reference the shared node objects,
each connection's node list shows the updated positions as well; then
`update_forces` refreshes the stored forces. -/
noncomputable def applySolution (S : TensegritySolver) (x : List ℝ) : TensegritySolver :=
  let N := S.get_nodes_from_input x
  let newNodes := S.tensegrity.nodes.mapIdx (fun i nd => { nd with position := N.getD i [] })
  let newConns := S.tensegrity.connections.map (fun c =>
    { c with nodes := c.nodes.map (fun nd =>
        { nd with position := N.getD (S.nodeIdx nd.name) [] }) })
  let T1 := Tensegrity.update_forces
    { S.tensegrity with nodes := newNodes, connections := newConns }
  { S with tensegrity := T1 }

/-- `TensegritySolver.solve`, with the scipy root finder abstracted as an
oracle from initial guess to optional solution and the retry's Gaussian
perturbation abstracted as a noise vector: try the current configuration,
on failure retry once from the perturbed guess, on a second failure return
with no mutation at all. -/
noncomputable def solve (S : TensegritySolver)
    (rootFinder : List ℝ → Option (List ℝ)) (noise : List ℝ) : TensegritySolver :=
  let x0 := S.create_initial_guess
  match rootFinder x0 with
  | some xs => S.applySolution xs
  | none =>
    match rootFinder (List.zipWith (fun a b => a + b) x0 noise) with
    | some xs => S.applySolution xs
    | none => S

end TensegritySolver

/-- A driver-level operation on the structure: a `change_control_lengths`
call (a raised count ValueError leaves the state unchanged, since the check
precedes any mutation) or a `solve` call with its root-finder oracle and
retry noise. -/
inductive SolverOp where
  | change : List ℝ → SolverOp
  | solveOp : (List ℝ → Option (List ℝ)) → List ℝ → SolverOp

/-- Apply one driver operation. -/
noncomputable def applyOp (S : TensegritySolver) : SolverOp → TensegritySolver
  | SolverOp.change ds =>
    match S.tensegrity.change_control_lengths ds with
    | Except.ok T1 => { S with tensegrity := T1 }
    | Except.error _ => S
  | SolverOp.solveOp rf noise => S.solve rf noise

/-- Apply a sequence of driver operations. -/
noncomputable def applyOps (S : TensegritySolver) (ops : List SolverOp) : TensegritySolver :=
  ops.foldl applyOp S

/-- A left fold that only ever adds a per-element amount to the accumulator
is the sum of those amounts. -/
lemma foldl_add_sum {α : Type} (g : α → ℝ) (l : List α) (init : ℝ) :
    l.foldl (fun acc i => acc + g i) init = init + (l.map g).sum := by
  induction l generalizing init with
  | nil => simp
  | cons a as ih => simp [ih, add_assoc]

/-- C5: `Connection.current_length` is the sum, over consecutive node pairs
of the chain, of the Euclidean distance of the pair, where a registered
linked pair contributes exactly `0`; with no linked pairs it is exactly the
sum of consecutive Euclidean distances. -/
theorem current_length_sum_of_distances (c : Connection)
    (linked : List (String × String)) :
    c.current_length linked =
      ((List.range (c.nodes.length - 1)).map (fun i =>
        if pairMem linked (c.nodes.getD i default).name
            (c.nodes.getD (i + 1) default).name then 0
        else nodeDist (c.nodes.getD i default) (c.nodes.getD (i + 1) default))).sum
    ∧ c.current_length [] =
      ((List.range (c.nodes.length - 1)).map (fun i =>
        nodeDist (c.nodes.getD i default) (c.nodes.getD (i + 1) default))).sum := by
  have key : ∀ L : List (String × String),
      c.current_length L =
        ((List.range (c.nodes.length - 1)).map (fun i =>
          if pairMem L (c.nodes.getD i default).name
              (c.nodes.getD (i + 1) default).name then 0
          else nodeDist (c.nodes.getD i default) (c.nodes.getD (i + 1) default))).sum := by
    intro L
    have hstep :
        (fun (acc : ℝ) (i : ℕ) =>
          if pairMem L (c.nodes.getD i default).name
              (c.nodes.getD (i + 1) default).name then acc
          else acc + nodeDist (c.nodes.getD i default) (c.nodes.getD (i + 1) default)) =
        (fun (acc : ℝ) (i : ℕ) =>
          acc + (if pairMem L (c.nodes.getD i default).name
              (c.nodes.getD (i + 1) default).name then 0
            else nodeDist (c.nodes.getD i default) (c.nodes.getD (i + 1) default))) := by
      funext acc i
      by_cases h : pairMem L (c.nodes.getD i default).name
          (c.nodes.getD (i + 1) default).name = true
      · rw [if_pos h, if_pos h, add_zero]
      · rw [if_neg h, if_neg h]
    rw [Connection.current_length, hstep, foldl_add_sum, zero_add]
  refine ⟨key linked, ?_⟩
  rw [key []]
  simp [pairMem]

/-- C4: `Connection.update_force` applies the signed law `k·(L−L0)` for a
BAR and the clamped law `max 0 (k·(L−L0))` for a STRING; a STRING force is
never negative and, for a non-negative stiffness, is exactly `0` whenever
the current length is below the rest length. -/
theorem update_force_law (c : Connection) (L : ℝ) :
    (c.connection_type = ConnectionType.BAR →
      (c.update_force L).force = some (c.stiffness * (L - c.initial_length)))
    ∧ (c.connection_type = ConnectionType.STRING →
      (c.update_force L).force = some (max 0 (c.stiffness * (L - c.initial_length))))
    ∧ (c.connection_type = ConnectionType.STRING →
      ∀ f : ℝ, (c.update_force L).force = some f → 0 ≤ f)
    ∧ (c.connection_type = ConnectionType.STRING → 0 ≤ c.stiffness →
      L < c.initial_length → (c.update_force L).force = some 0) := by
  refine ⟨?_, ?_, ?_, ?_⟩
  · intro h
    cases c.connection_type <;> simp_all [Connection.update_force]
  · intro h
    simp [Connection.update_force, h]
  · intro h f hf
    simp [Connection.update_force, h] at hf
    rw [← hf]
    exact le_max_left 0 _
  · intro h hk hL
    have hmul : c.stiffness * (L - c.initial_length) ≤ 0 :=
      mul_nonpos_of_nonneg_of_nonpos hk (by linarith)
    simp [Connection.update_force, h, max_eq_left hmul]

/-- Witness for C4: a concrete STRING connection of unit stiffness and rest
length `2` evaluated at current length `1` yields force `0`. -/
theorem update_force_law_witness :
    (let c : Connection :=
      ⟨[], [], ConnectionType.STRING, 1, 2, none, none⟩
    (c.update_force 1).force = some 0) :=
  (update_force_law ⟨[], [], ConnectionType.STRING, 1, 2, none, none⟩ 1).2.2.2
    rfl (by norm_num) (by norm_num)

/-- C1: when the root finder fails on the initial guess and again on the
perturbed retry, `solve` returns with the solver — in particular every
node's position and every connection's stored force — exactly as it was:
the failure path runs before any write-back of positions and before any
`update_forces` call. -/
theorem solve_double_failure_leaves_state (S : TensegritySolver)
    (rootFinder : List ℝ → Option (List ℝ)) (noise : List ℝ)
    (h1 : rootFinder S.create_initial_guess = none)
    (h2 : rootFinder
      (List.zipWith (fun a b => a + b) S.create_initial_guess noise) = none) :
    S.solve rootFinder noise = S := by
  unfold TensegritySolver.solve
  simp [h1, h2]

/-- Witness for C1: an always-failing root finder leaves a concrete
one-node solver untouched. -/
theorem solve_double_failure_leaves_state_witness :
    TensegritySolver.solve
      ⟨⟨[⟨"A", [0, 0]⟩], [], [], [], none, []⟩, 2, fun _ => 0⟩
      (fun _ => none) [] =
      ⟨⟨[⟨"A", [0, 0]⟩], [], [], [], none, []⟩, 2, fun _ => 0⟩ :=
  solve_double_failure_leaves_state _ _ _ rfl rfl

/-- Each application of the `_length_derivative` loop body adds the
specified segment contribution pointwise. -/
lemma lengthDerivStep_eq (S : TensegritySolver) (c : Connection)
    (N : List (List ℝ)) (dl : ℕ → ℝ) (i j : ℕ) :
    S.lengthDerivStep c N dl i j = dl j + S.segmentContribution c N i j := by
  unfold TensegritySolver.lengthDerivStep TensegritySolver.segmentContribution
  by_cases hlen : S.node_distance (c.nodes.getD i default).name
      (c.nodes.getD (i + 1) default).name N = 0
  · rw [if_pos hlen, if_pos hlen]
    simp
  · rw [if_neg hlen, if_neg hlen]
    simp only [sliceAdd]
    split_ifs <;> ring

/-- Pointwise value of a fold that accumulates segment contributions. -/
lemma foldl_lengthDerivStep (S : TensegritySolver) (c : Connection)
    (N : List (List ℝ)) :
    ∀ (l : List ℕ) (F0 : ℕ → ℝ) (j : ℕ),
      (l.foldl (S.lengthDerivStep c N) F0) j =
        F0 j + (l.map (fun i => S.segmentContribution c N i j)).sum := by
  intro l
  induction l with
  | nil => intro F0 j; simp
  | cons a as ih =>
    intro F0 j
    rw [List.foldl_cons, ih, List.map_cons, List.sum_cons, lengthDerivStep_eq]
    ring

/-- C6: `_length_derivative` is total: its value at every coordinate is the
sum over chain segments of the guarded contribution — exactly zero for a
segment whose endpoints coincide (including linked seam pairs, whose
`_node_distance` is zero), and the difference vector divided by the segment
length at the two endpoints' slots otherwise.  No division by a zero
segment length is ever performed. -/
theorem length_derivative_guarded_sum (S : TensegritySolver) (c : Connection)
    (N : List (List ℝ)) (j : ℕ) :
    S.length_derivative c N j =
      ((List.range (c.nodes.length - 1)).map
        (fun i => S.segmentContribution c N i j)).sum := by
  rw [TensegritySolver.length_derivative, foldl_lengthDerivStep]
  simp

/-! ### Deletion / re-insertion infrastructure for C3 -/

/-- Deleting nothing is the identity. -/
lemma npDelete_false : ∀ ys : List ℝ, npDelete (fun _ => false) ys = ys := by
  intro ys
  induction ys with
  | nil => rfl
  | cons y ys0 ih => simp only [npDelete, if_neg Bool.false_ne_true, ih]

/-- Re-inserting the original value of index `i` undoes its deletion,
provided every other deleted index lies strictly beyond `i`. -/
lemma npInsert_npDelete :
    ∀ (i : ℕ) (ys : List ℝ) (p q : ℕ → Bool),
      i < ys.length →
      (∀ j, q j = ((j == i) || p j)) →
      (∀ j, j ≤ i → p j = false) →
      npInsert i (ys.getD i 0) (npDelete q ys) = npDelete p ys := by
  intro i
  induction i with
  | zero =>
    intro ys p q hi hq hp
    cases ys with
    | nil => simp at hi
    | cons y ys0 =>
      have hq0 : q 0 = true := by rw [hq 0]; rfl
      have hp0 : p 0 = false := hp 0 (Nat.le_refl 0)
      have hqp : (fun j => q (j + 1)) = (fun j => p (j + 1)) := by
        funext j
        rw [hq (j + 1)]
        rfl
      simp only [npDelete, hq0, hp0, if_true, Bool.false_ne_true, if_neg, if_false, hqp]
      rfl
  | succ n ih =>
    intro ys p q hi hq hp
    cases ys with
    | nil => simp at hi
    | cons y ys0 =>
      have hp0 : p 0 = false := hp 0 (Nat.zero_le _)
      have hq0 : q 0 = false := by rw [hq 0, hp0]; rfl
      simp only [npDelete, hq0, hp0, Bool.false_ne_true, if_neg, if_false]
      show npInsert (n + 1) (ys0.getD n 0) (y :: npDelete (fun i => q (i + 1)) ys0) =
        y :: npDelete (fun i => p (i + 1)) ys0
      rw [npInsert]
      congr 1
      exact ih ys0 (fun j => p (j + 1)) (fun j => q (j + 1))
        (by simpa using hi)
        (fun j => by
          show q (j + 1) = ((j == n) || p (j + 1))
          rw [hq (j + 1)]
          have hbeq : (j + 1 == n + 1) = (j == n) := by
            by_cases h : j = n
            · subst h; simp
            · rw [beq_eq_false_iff_ne.mpr (by omega : j + 1 ≠ n + 1),
                beq_eq_false_iff_ne.mpr h]
          rw [hbeq])
        (fun j hj => hp (j + 1) (Nat.succ_le_succ hj))

/-- Sequentially re-inserting, in strictly increasing index order, the
original values of the deleted indices reconstructs the original list. -/
lemma reinsert_npDelete :
    ∀ (pairs : List (ℕ × ℝ)) (ys : List ℝ),
      List.Pairwise (fun a b => a.1 < b.1) pairs →
      (∀ a ∈ pairs, a.1 < ys.length ∧ ys.getD a.1 0 = a.2) →
      reinsert pairs (npDelete (fun j => pairs.any (fun a => j == a.1)) ys) = ys := by
  intro pairs
  induction pairs with
  | nil =>
    intro ys _ _
    show npDelete _ ys = ys
    exact npDelete_false ys
  | cons hd tl ih =>
    intro ys hpw hval
    have hhd := hval hd (List.mem_cons_self _ _)
    have hp : ∀ j, j ≤ hd.1 → tl.any (fun a => j == a.1) = false := by
      intro j hj
      rw [List.any_eq_false]
      intro a ha habs
      have hlt := (List.pairwise_cons.mp hpw).1 a ha
      have : j = a.1 := by exact_mod_cast beq_iff_eq.mp habs
      omega
    show reinsert tl (npInsert hd.1 hd.2
      (npDelete (fun j => (hd :: tl).any (fun a => j == a.1)) ys)) = ys
    rw [← hhd.2, npInsert_npDelete hd.1 ys (fun j => tl.any (fun a => j == a.1))
      (fun j => (hd :: tl).any (fun a => j == a.1)) hhd.1 (fun j => rfl) hp]
    exact ih ys (List.pairwise_cons.mp hpw).2
      (fun a ha => hval a (List.mem_cons_of_mem _ ha))

/-- The delete list of `_create_initial_guess` is the key sequence of the
`ins_index` dict of `_get_nodes_from_input`: both are generated by the same
iteration over the pins dict. -/
lemma pinSlots_eq_map_fst (S : TensegritySolver) :
    S.pinSlots = S.insPairs.map Prod.fst := by
  unfold TensegritySolver.pinSlots TensegritySolver.insPairs
  rw [List.map_flatMap]
  exact congrArg _ (funext fun p => by rw [List.map_map]; rfl)

/-- `any` over the first components of a pair list. -/
lemma any_map_fst (l : List (ℕ × ℝ)) (p : ℕ → Bool) :
    (l.map Prod.fst).any p = l.any (fun a => p a.1) := by
  induction l with
  | nil => rfl
  | cons a as ih => simp only [List.map_cons, List.any_cons, ih]

/-- Reading inside `take n` below the cut is reading the original list. -/
lemma getD_take (l : List ℝ) (n i : ℕ) (h : i < n) :
    (l.take n).getD i 0 = l.getD i 0 := by
  rw [List.getD_eq_getElem?_getD, List.getD_eq_getElem?_getD, List.getElem?_take,
    if_pos h]

/-- Indexing a flattened list of equal-length rows. -/
lemma getD_flatMap_rows (f : Node → List ℝ) (d : ℕ) :
    ∀ (l : List Node) (q i : ℕ), (∀ nd ∈ l, (f nd).length = d) →
      q < l.length → i < d →
      (l.flatMap f).getD (q * d + i) 0 = (f (l.getD q default)).getD i 0 := by
  intro l
  induction l with
  | nil => intro q i _ hq _; simp at hq
  | cons nd rest ih =>
    intro q i hf hq hi
    rw [List.flatMap_cons]
    cases q with
    | zero =>
      simp only [Nat.zero_mul, Nat.zero_add]
      rw [List.getD_append _ _ _ i
        (by rw [hf nd (List.mem_cons_self _ _)]; exact hi)]
      rfl
    | succ q0 =>
      have harith : (q0 + 1) * d + i = (f nd).length + (q0 * d + i) := by
        rw [hf nd (List.mem_cons_self _ _)]
        ring
      rw [harith, List.getD_append_right _ _ _ _ (Nat.le_add_right _ _),
        Nat.add_sub_cancel_left]
      exact ih q0 i (fun x hx => hf x (List.mem_cons_of_mem _ hx))
        (Nat.lt_of_succ_lt_succ (by simpa using hq)) hi

/-- Reshaping the flattening of equal-length rows recovers the rows, for
any sufficient fuel. -/
lemma chunkAux_flatMap (f : Node → List ℝ) (d : ℕ) (hd : 1 ≤ d) :
    ∀ (l : List Node) (fuel : ℕ), (∀ nd ∈ l, (f nd).length = d) →
      (l.flatMap f).length ≤ fuel →
      chunkAux fuel d (l.flatMap f) = l.map f := by
  intro l
  induction l with
  | nil =>
    intro fuel _ _
    rw [List.flatMap_nil]
    cases fuel with
    | zero => rfl
    | succ n => cases d with | zero => rfl | succ d0 => rfl
  | cons nd rest ih =>
    intro fuel hf hfuel
    rw [List.flatMap_cons] at hfuel ⊢
    have hlen := hf nd (List.mem_cons_self _ _)
    obtain ⟨d0, rfl⟩ : ∃ d0, d = d0 + 1 := ⟨d - 1, by omega⟩
    cases hfn : f nd with
    | nil => rw [hfn] at hlen; simp at hlen
    | cons a as =>
      rw [hfn] at hlen hfuel
      have hasl : as.length = d0 := by simpa using hlen
      have hfpos : 1 ≤ fuel := by
        simp only [List.length_append, List.length_cons] at hfuel
        omega
      obtain ⟨fuel0, rfl⟩ : ∃ fuel0, fuel = fuel0 + 1 := ⟨fuel - 1, by omega⟩
      rw [List.cons_append, chunkAux]
      rw [show (as ++ rest.flatMap f).take d0 = as from by
          rw [← hasl]; exact List.take_left _ _,
        show (as ++ rest.flatMap f).drop d0 = rest.flatMap f from by
          rw [← hasl]; exact List.drop_left _ _]
      rw [ih fuel0 (fun x hx => hf x (List.mem_cons_of_mem _ hx))
        (by simp only [List.length_append, List.length_cons] at hfuel; omega),
        List.map_cons, hfn]

/-- Reshaping the flattening of equal-length rows recovers the rows. -/
lemma chunkList_flatMap (f : Node → List ℝ) (d : ℕ) (hd : 1 ≤ d)
    (l : List Node) (hf : ∀ nd ∈ l, (f nd).length = d) :
    chunkList d (l.flatMap f) = l.map f :=
  chunkAux_flatMap f d hd l (l.flatMap f).length hf (Nat.le_refl _)

/-- The length of the flattening of the truncated node positions. -/
lemma flat_positions_length (S : TensegritySolver)
    (hpos : ∀ nd ∈ S.tensegrity.nodes, S.dim ≤ nd.position.length) :
    (S.tensegrity.nodes.flatMap (fun nd => nd.position.take S.dim)).length =
      S.tensegrity.nodes.length * S.dim := by
  rw [List.length_flatMap]
  have hmap : List.map (List.length ∘ fun nd => nd.position.take S.dim)
      S.tensegrity.nodes =
      List.replicate S.tensegrity.nodes.length S.dim := by
    rw [List.eq_replicate_iff]
    refine ⟨by simp, ?_⟩
    intro b hb
    rw [List.mem_map] at hb
    obtain ⟨nd, hnd, rfl⟩ := hb
    simp only [Function.comp, List.length_take]
    exact min_eq_left (hpos nd hnd)
  rw [hmap, List.sum_replicate, smul_eq_mul]

/-- C3 (amended): when the pinned coordinate indices generated from the
pins mapping are strictly increasing (in particular when the pins entries
are listed in increasing node-declaration order), `_get_nodes_from_input`
applied to `_create_initial_guess` reconstructs exactly the full per-node
coordinate array: the first `dim` components of every node position, in
declaration order. -/
theorem get_nodes_from_input_roundtrip (S : TensegritySolver)
    (hdim : 1 ≤ S.dim)
    (hpos : ∀ nd ∈ S.tensegrity.nodes, S.dim ≤ nd.position.length)
    (hpinidx : ∀ p ∈ S.tensegrity.pins,
      S.nodeIdx p.1 < S.tensegrity.nodes.length)
    (hsort : List.Pairwise (· < ·) S.pinSlots) :
    S.get_nodes_from_input S.create_initial_guess =
      S.tensegrity.nodes.map (fun nd => nd.position.take S.dim) := by
  have hrow : ∀ nd ∈ S.tensegrity.nodes,
      ((fun (nd : Node) => nd.position.take S.dim) nd).length = S.dim := by
    intro nd h
    simpa using min_eq_left (hpos nd h)
  have hlen := flat_positions_length S hpos
  have hvals : ∀ a ∈ S.insPairs,
      a.1 < (S.tensegrity.nodes.flatMap (fun nd => nd.position.take S.dim)).length ∧
      (S.tensegrity.nodes.flatMap (fun nd => nd.position.take S.dim)).getD a.1 0 = a.2 := by
    intro a ha
    unfold TensegritySolver.insPairs at ha
    rw [List.mem_flatMap] at ha
    obtain ⟨p, hp, hin⟩ := ha
    rw [List.mem_map] at hin
    obtain ⟨i, hifil, rfl⟩ := hin
    have hi : i < S.dim := List.mem_range.mp (List.mem_filter.mp hifil).1
    have hq : S.nodeIdx p.1 < S.tensegrity.nodes.length := hpinidx p hp
    constructor
    · rw [hlen]
      have h1 : S.nodeIdx p.1 * S.dim + i < (S.nodeIdx p.1 + 1) * S.dim := by
        rw [Nat.succ_mul]
        omega
      exact lt_of_lt_of_le h1 (Nat.mul_le_mul_right _ hq)
    · rw [getD_flatMap_rows (fun nd => nd.position.take S.dim) S.dim
        S.tensegrity.nodes (S.nodeIdx p.1) i hrow hq hi]
      exact getD_take _ _ _ hi
  have hpw : List.Pairwise (fun (a b : ℕ × ℝ) => a.1 < b.1) S.insPairs := by
    have h2 := hsort
    rw [pinSlots_eq_map_fst] at h2
    exact List.pairwise_map.mp h2
  have hpred : (fun j => S.pinSlots.contains j) =
      (fun j => S.insPairs.any (fun a => j == a.1)) := by
    funext j
    rw [List.contains_eq_any_beq, pinSlots_eq_map_fst, any_map_fst]
  unfold TensegritySolver.get_nodes_from_input TensegritySolver.create_initial_guess
  rw [hpred, reinsert_npDelete S.insPairs _ hpw hvals]
  exact chunkList_flatMap _ _ hdim _ hrow

/-- Witness for the amended C3: with the same structure but the pins dict
in increasing node order, the roundtrip reconstructs the positions. -/
theorem get_nodes_from_input_roundtrip_witness :
    TensegritySolver.get_nodes_from_input
      ⟨⟨[⟨"A", [0, 0]⟩, ⟨"B", [10, 20]⟩], [],
        [("A", [true, false]), ("B", [true, false])], [], none, []⟩, 2, fun _ => 0⟩
      (TensegritySolver.create_initial_guess
        ⟨⟨[⟨"A", [0, 0]⟩, ⟨"B", [10, 20]⟩], [],
          [("A", [true, false]), ("B", [true, false])], [], none, []⟩, 2, fun _ => 0⟩) =
      (⟨⟨[⟨"A", [0, 0]⟩, ⟨"B", [10, 20]⟩], [],
        [("A", [true, false]), ("B", [true, false])], [], none,
        []⟩, 2, fun _ => 0⟩ : TensegritySolver).tensegrity.nodes.map
        (fun nd => nd.position.take 2) :=
  get_nodes_from_input_roundtrip
    ⟨⟨[⟨"A", [0, 0]⟩, ⟨"B", [10, 20]⟩], [],
      [("A", [true, false]), ("B", [true, false])], [], none, []⟩, 2, fun _ => 0⟩
    (by decide) (by decide) (by decide) (by decide)

/-- Counterexample to C3 as stated: with the pins dict listing node "B"
(declaration index 1) before node "A" (declaration index 0), the
sequential `np.insert` loop of `_get_nodes_from_input` re-inserts the
pinned x values at the wrong places, so the roundtrip through
`_create_initial_guess` does not reconstruct the node positions. -/
theorem get_nodes_from_input_roundtrip_cex :
    ¬ (TensegritySolver.get_nodes_from_input
        ⟨⟨[⟨"A", [0, 0]⟩, ⟨"B", [10, 20]⟩], [],
          [("B", [true, false]), ("A", [true, false])], [], none, []⟩, 2, fun _ => 0⟩
        (TensegritySolver.create_initial_guess
          ⟨⟨[⟨"A", [0, 0]⟩, ⟨"B", [10, 20]⟩], [],
            [("B", [true, false]), ("A", [true, false])], [], none, []⟩, 2, fun _ => 0⟩) =
      (⟨⟨[⟨"A", [0, 0]⟩, ⟨"B", [10, 20]⟩], [],
          [("B", [true, false]), ("A", [true, false])], [], none,
          []⟩, 2, fun _ => 0⟩ : TensegritySolver).tensegrity.nodes.map
        (fun nd => nd.position.take
          (⟨⟨[⟨"A", [0, 0]⟩, ⟨"B", [10, 20]⟩], [],
            [("B", [true, false]), ("A", [true, false])], [], none,
            []⟩, 2, fun _ => 0⟩ : TensegritySolver).dim)) := by
  intro h
  have hL : TensegritySolver.get_nodes_from_input
      ⟨⟨[⟨"A", [0, 0]⟩, ⟨"B", [10, 20]⟩], [],
        [("B", [true, false]), ("A", [true, false])], [], none, []⟩, 2, fun _ => 0⟩
      (TensegritySolver.create_initial_guess
        ⟨⟨[⟨"A", [0, 0]⟩, ⟨"B", [10, 20]⟩], [],
          [("B", [true, false]), ("A", [true, false])], [], none, []⟩, 2, fun _ => 0⟩) =
      [[(0 : ℝ), 0], [20, 10]] := by rfl
  rw [hL] at h
  have hR : (⟨⟨[⟨"A", [0, 0]⟩, ⟨"B", [10, 20]⟩], [],
      [("B", [true, false]), ("A", [true, false])], [], none,
      []⟩, 2, fun _ => 0⟩ : TensegritySolver).tensegrity.nodes.map
      (fun nd => nd.position.take
        (⟨⟨[⟨"A", [0, 0]⟩, ⟨"B", [10, 20]⟩], [],
          [("B", [true, false]), ("A", [true, false])], [], none,
          []⟩, 2, fun _ => 0⟩ : TensegritySolver).dim) =
      [[(0 : ℝ), 0], [10, 20]] := by rfl
  rw [hR] at h
  simp only [List.cons.injEq] at h
  have h20 : (20 : ℝ) = 10 := h.2.1.1
  norm_num at h20

/-! ### List-cell update infrastructure for C7 / C8 -/

/-- Updating one cell preserves the length. -/
lemma listUpdate_length {α : Type} :
    ∀ (l : List α) (k : ℕ) (f : α → α), (listUpdate l k f).length = l.length := by
  intro l
  induction l with
  | nil => intro k f; rfl
  | cons a as ih =>
    intro k f
    cases k with
    | zero => rfl
    | succ n => simp only [listUpdate, List.length_cons, ih]

/-- Reading a different cell after an update. -/
lemma listUpdate_getD_ne {α : Type} [Inhabited α] :
    ∀ (l : List α) (k j : ℕ) (f : α → α), j ≠ k →
      (listUpdate l k f).getD j default = l.getD j default := by
  intro l
  induction l with
  | nil => intro k j f _; rfl
  | cons a as ih =>
    intro k j f h
    cases k with
    | zero =>
      cases j with
      | zero => exact absurd rfl h
      | succ j0 => rfl
    | succ k0 =>
      cases j with
      | zero => rfl
      | succ j0 =>
        show (listUpdate as k0 f).getD j0 default = as.getD j0 default
        exact ih k0 j0 f (fun hh => h (by rw [hh]))

/-- Reading the updated cell. -/
lemma listUpdate_getD_eq {α : Type} [Inhabited α] :
    ∀ (l : List α) (k : ℕ) (f : α → α), k < l.length →
      (listUpdate l k f).getD k default = f (l.getD k default) := by
  intro l
  induction l with
  | nil => intro k f h; simp at h
  | cons a as ih =>
    intro k f h
    cases k with
    | zero => rfl
    | succ k0 =>
      show (listUpdate as k0 f).getD k0 default = f (as.getD k0 default)
      exact ih k0 f (by simpa using h)

/-- A fold of cell updates at indices other than `k` leaves cell `k`
alone. -/
lemma foldl_listUpdate_other {α : Type} [Inhabited α] (g : ℝ → α → α) :
    ∀ (l : List (ℕ × ℝ)) (cs : List α) (k : ℕ), (∀ p ∈ l, p.1 ≠ k) →
      (l.foldl (fun acc pr => listUpdate acc pr.1 (g pr.2)) cs).getD k default =
        cs.getD k default := by
  intro l
  induction l with
  | nil => intro cs k _; rfl
  | cons pr0 tl ih =>
    intro cs k h
    show (tl.foldl _ (listUpdate cs pr0.1 (g pr0.2))).getD k default = _
    rw [ih _ k (fun p hp => h p (List.mem_cons_of_mem _ hp))]
    exact listUpdate_getD_ne cs pr0.1 k _ (fun hh => h pr0 (List.mem_cons_self _ _) hh.symm)

/-- A fold of cell updates preserves the length. -/
lemma foldl_listUpdate_length {α : Type} (g : ℝ → α → α) :
    ∀ (l : List (ℕ × ℝ)) (cs : List α),
      (l.foldl (fun acc pr => listUpdate acc pr.1 (g pr.2)) cs).length = cs.length := by
  intro l
  induction l with
  | nil => intro cs; rfl
  | cons pr0 tl ih =>
    intro cs
    show (tl.foldl _ (listUpdate cs pr0.1 (g pr0.2))).length = _
    rw [ih, listUpdate_length]

/-- With pairwise-distinct target indices, a fold of cell updates applies
each pair's modification to its own cell exactly once. -/
lemma foldl_listUpdate_cell {α : Type} [Inhabited α] (g : ℝ → α → α) :
    ∀ (l : List (ℕ × ℝ)) (cs : List α), (l.map Prod.fst).Nodup →
      (∀ p ∈ l, p.1 < cs.length) →
      ∀ p ∈ l, (l.foldl (fun acc pr => listUpdate acc pr.1 (g pr.2)) cs).getD p.1 default =
        g p.2 (cs.getD p.1 default) := by
  intro l
  induction l with
  | nil => intro cs _ _ p hp; simp at hp
  | cons pr0 tl ih =>
    intro cs hnd hlt p hp
    rw [List.map_cons, List.nodup_cons] at hnd
    rcases List.mem_cons.mp hp with rfl | hmem
    · show (tl.foldl _ (listUpdate cs p.1 (g p.2))).getD p.1 default = _
      rw [foldl_listUpdate_other g tl _ p.1
        (fun q hq habs => hnd.1 (habs ▸ List.mem_map_of_mem Prod.fst hq))]
      exact listUpdate_getD_eq cs p.1 _ (hlt p (List.mem_cons_self _ _))
    · show (tl.foldl _ (listUpdate cs pr0.1 (g pr0.2))).getD p.1 default = _
      rw [ih (listUpdate cs pr0.1 (g pr0.2)) hnd.2
        (fun q hq => by rw [listUpdate_length]; exact hlt q (List.mem_cons_of_mem _ hq))
        p hmem]
      rw [listUpdate_getD_ne cs pr0.1 p.1 _
        (fun habs => hnd.1 (habs ▸ List.mem_map_of_mem Prod.fst hmem))]

/-- `getD` through a `map`, below the length. -/
lemma getD_map_lt {α β : Type} (f : α → β) (l : List α) (i : ℕ)
    (h : i < l.length) (d : β) (d2 : α) :
    (l.map f).getD i d = f (l.getD i d2) := by
  rw [List.getD_eq_getElem?_getD, List.getElem?_map, List.getElem?_eq_getElem h,
    List.getD_eq_getElem?_getD, List.getElem?_eq_getElem h]
  rfl

/-- Membership of the `i`-th zip pair. -/
lemma getD_zip_mem {α β : Type} (l1 : List α) (l2 : List β) (i : ℕ)
    (h1 : i < l1.length) (h2 : i < l2.length) (d1 : α) (d2 : β) :
    (l1.getD i d1, l2.getD i d2) ∈ l1.zip l2 := by
  apply List.getElem?_mem (n := i)
  rw [List.getElem?_zip_eq_some]
  constructor
  · show l1[i]? = some (l1.getD i d1)
    rw [List.getD_eq_getElem?_getD, List.getElem?_eq_getElem h1]
    rfl
  · show l2[i]? = some (l2.getD i d2)
    rw [List.getD_eq_getElem?_getD, List.getElem?_eq_getElem h2]
    rfl

/-- C8: `change_control_lengths` raises exactly when the delta count
differs from the number of registered controls (the check precedes any
mutation); on a matching count it adds the `i`-th delta to the `i`-th
control's rest length and changes nothing else — no node position moves
and no re-solve happens. -/
theorem change_control_lengths_spec (T : Tensegrity) (deltas : List ℝ)
    (hnd : T.controls.Nodup)
    (hlt : ∀ ci ∈ T.controls, ci < T.connections.length) :
    (deltas.length ≠ T.controls.length →
      T.change_control_lengths deltas =
        Except.error "Number of delta lengths must be equal to the number of control connections.")
    ∧ (deltas.length = T.controls.length →
      ∃ T2, T.change_control_lengths deltas = Except.ok T2 ∧
        T2.nodes = T.nodes ∧ T2.pins = T.pins ∧ T2.controls = T.controls ∧
        T2.surface = T.surface ∧
        T2.control_starting_lengths = T.control_starting_lengths ∧
        T2.connections.length = T.connections.length ∧
        (∀ i, i < T.controls.length →
          T2.connections.getD (T.controls.getD i 0) default =
            { T.connections.getD (T.controls.getD i 0) default with
                initial_length :=
                  (T.connections.getD (T.controls.getD i 0) default).initial_length +
                    deltas.getD i 0 }) ∧
        (∀ j, j ∉ T.controls →
          T2.connections.getD j default = T.connections.getD j default)) := by
  constructor
  · intro h
    rw [Tensegrity.change_control_lengths, if_pos h]
  · intro h
    rw [Tensegrity.change_control_lengths, if_neg (fun hc => hc h)]
    refine ⟨_, rfl, rfl, rfl, rfl, rfl, rfl, ?_, ?_, ?_⟩
    · show ((T.controls.zip deltas).foldl
          (fun cs pr => listUpdate cs pr.1
            (fun c => { c with initial_length := c.initial_length + pr.2 }))
          T.connections).length = T.connections.length
      exact foldl_listUpdate_length
        (fun (d : ℝ) (c : Connection) =>
          { c with initial_length := c.initial_length + d }) _ _
    · intro i hi
      have hmem := getD_zip_mem T.controls deltas i hi (h ▸ hi) 0 0
      show ((T.controls.zip deltas).foldl
          (fun cs pr => listUpdate cs pr.1
            (fun c => { c with initial_length := c.initial_length + pr.2 }))
          T.connections).getD (T.controls.getD i 0) default = _
      exact foldl_listUpdate_cell
        (fun (d : ℝ) (c : Connection) =>
          { c with initial_length := c.initial_length + d })
        (T.controls.zip deltas) T.connections
        (by rw [List.map_fst_zip _ _ (le_of_eq h.symm)]; exact hnd)
        (fun p hp => hlt p.1 (List.of_mem_zip hp).1)
        (T.controls.getD i 0, deltas.getD i 0) hmem
    · intro j hj
      show ((T.controls.zip deltas).foldl
          (fun cs pr => listUpdate cs pr.1
            (fun c => { c with initial_length := c.initial_length + pr.2 }))
          T.connections).getD j default = _
      exact foldl_listUpdate_other
        (fun (d : ℝ) (c : Connection) =>
          { c with initial_length := c.initial_length + d })
        (T.controls.zip deltas) T.connections j
        (fun p hp habs => hj (habs ▸ (List.of_mem_zip hp).1))

/-- Witness for C8: a one-control structure rejects an empty delta list. -/
theorem change_control_lengths_spec_witness :
    Tensegrity.change_control_lengths
      ⟨[], [⟨[], [], ConnectionType.STRING, 1, 5, none, some "c"⟩], [], [0], none, [5]⟩ [] =
      Except.error "Number of delta lengths must be equal to the number of control connections." :=
  (change_control_lengths_spec
    ⟨[], [⟨[], [], ConnectionType.STRING, 1, 5, none, some "c"⟩], [], [0], none, [5]⟩ []
    (by decide) (by decide)).1 (by decide)

/-- `Tensegrity.construct` snapshots exactly the controls' rest lengths as
passed in, keeps the control list, and keeps the connection count. -/
lemma construct_fields (nodes : List Node) (conns : List Connection)
    (pins : List (String × List Bool)) (controls : List ℕ) (surf : Option Surface) :
    (Tensegrity.construct nodes conns pins controls surf).controls = controls ∧
    (Tensegrity.construct nodes conns pins controls surf).control_starting_lengths =
      controls.map (fun ci => (conns.getD ci default).initial_length) ∧
    (Tensegrity.construct nodes conns pins controls surf).connections.length =
      conns.length := by
  unfold Tensegrity.construct Tensegrity.update_forces
  exact ⟨rfl, rfl, by simp⟩

/-- Each driver operation preserves the control list, the snapshot of
starting lengths, and the connection count. -/
lemma applyOp_preserves (S : TensegritySolver) (op : SolverOp) :
    (applyOp S op).tensegrity.controls = S.tensegrity.controls ∧
    (applyOp S op).tensegrity.control_starting_lengths =
      S.tensegrity.control_starting_lengths ∧
    (applyOp S op).tensegrity.connections.length =
      S.tensegrity.connections.length := by
  cases op with
  | change ds =>
    cases hs : S.tensegrity.change_control_lengths ds with
    | error e => simp [applyOp, hs]
    | ok T1 =>
      simp only [applyOp, hs]
      unfold Tensegrity.change_control_lengths at hs
      by_cases h : ds.length ≠ S.tensegrity.controls.length
      · rw [if_pos h] at hs
        exact absurd hs (by simp)
      · rw [if_neg h] at hs
        injection hs with hs1
        subst hs1
        refine ⟨rfl, rfl, ?_⟩
        show ((S.tensegrity.controls.zip ds).foldl
            (fun cs pr => listUpdate cs pr.1
              (fun c => { c with initial_length := c.initial_length + pr.2 }))
            S.tensegrity.connections).length = S.tensegrity.connections.length
        exact foldl_listUpdate_length
          (fun (d : ℝ) (c : Connection) =>
            { c with initial_length := c.initial_length + d }) _ _
  | solveOp rf noise =>
    cases h1 : rf S.create_initial_guess with
    | some xs =>
      simp [applyOp, TensegritySolver.solve, h1,
        TensegritySolver.applySolution, Tensegrity.update_forces]
    | none =>
      cases h2 : rf (List.zipWith (fun a b => a + b) S.create_initial_guess noise) with
      | some xs =>
        simp [applyOp, TensegritySolver.solve, h1, h2,
          TensegritySolver.applySolution, Tensegrity.update_forces]
      | none => simp [applyOp, TensegritySolver.solve, h1, h2]

/-- A whole driver run preserves the control list, the snapshot, and the
connection count. -/
lemma applyOps_preserves (ops : List SolverOp) :
    ∀ S : TensegritySolver,
      (applyOps S ops).tensegrity.controls = S.tensegrity.controls ∧
      (applyOps S ops).tensegrity.control_starting_lengths =
        S.tensegrity.control_starting_lengths ∧
      (applyOps S ops).tensegrity.connections.length =
        S.tensegrity.connections.length := by
  induction ops with
  | nil => intro S; exact ⟨rfl, rfl, rfl⟩
  | cons op rest ih =>
    intro S
    have h1 := applyOp_preserves S op
    have h2 := ih (applyOp S op)
    show ((applyOps (applyOp S op) rest).tensegrity.controls = _) ∧ _
    exact ⟨h2.1.trans h1.1, h2.2.1.trans h1.2.1, h2.2.2.trans h1.2.2⟩

/-- After `reset_control_lengths`, the control at registration position `i`
carries exactly the `i`-th snapshot value. -/
lemma reset_control_lengths_cell (T : Tensegrity)
    (hnd : T.controls.Nodup)
    (hlt : ∀ ci ∈ T.controls, ci < T.connections.length)
    (hslen : T.controls.length ≤ T.control_starting_lengths.length)
    (i : ℕ) (hi : i < T.controls.length) :
    (T.reset_control_lengths.connections.getD (T.controls.getD i 0)
        default).initial_length =
      T.control_starting_lengths.getD i 0 := by
  have hmem := getD_zip_mem T.controls T.control_starting_lengths i hi
    (lt_of_lt_of_le hi hslen) 0 0
  have hcell :
      ((T.controls.zip T.control_starting_lengths).foldl
        (fun cs pr => listUpdate cs pr.1
          (fun c => { c with initial_length := pr.2 }))
        T.connections).getD (T.controls.getD i 0) default =
      { T.connections.getD (T.controls.getD i 0) default with
          initial_length := T.control_starting_lengths.getD i 0 } :=
    foldl_listUpdate_cell
      (fun (s : ℝ) (c : Connection) => { c with initial_length := s })
      (T.controls.zip T.control_starting_lengths) T.connections
      (by rw [List.map_fst_zip _ _ hslen]; exact hnd)
      (fun p hp => hlt p.1 (List.of_mem_zip hp).1)
      (T.controls.getD i 0, T.control_starting_lengths.getD i 0) hmem
  show (((T.controls.zip T.control_starting_lengths).foldl
      (fun cs pr => listUpdate cs pr.1
        (fun c => { c with initial_length := pr.2 }))
      T.connections).getD (T.controls.getD i 0) default).initial_length =
    T.control_starting_lengths.getD i 0
  rw [hcell]

/-- C7: for a constructed Tensegrity, any sequence of
`change_control_lengths` calls (valid or rejected) interleaved with
`solve` calls followed by `reset_control_lengths` restores every control
connection's rest length to its value at construction. -/
theorem reset_restores_construction_lengths (nodes : List Node)
    (conns : List Connection) (pins : List (String × List Bool))
    (controls : List ℕ) (surf : Option Surface) (dim : ℕ) (F : ℕ → ℝ)
    (ops : List SolverOp)
    (hnd : controls.Nodup) (hlt : ∀ ci ∈ controls, ci < conns.length)
    (i : ℕ) (hi : i < controls.length) :
    ((applyOps ⟨Tensegrity.construct nodes conns pins controls surf, dim, F⟩
        ops).tensegrity.reset_control_lengths.connections.getD
        (controls.getD i 0) default).initial_length =
      (conns.getD (controls.getD i 0) default).initial_length := by
  have hc := construct_fields nodes conns pins controls surf
  have hp := applyOps_preserves ops
    ⟨Tensegrity.construct nodes conns pins controls surf, dim, F⟩
  set T1 := (applyOps ⟨Tensegrity.construct nodes conns pins controls surf, dim, F⟩
    ops).tensegrity with hT1
  have hctrl : T1.controls = controls := hp.1.trans hc.1
  have hstart : T1.control_starting_lengths =
      controls.map (fun ci => (conns.getD ci default).initial_length) :=
    hp.2.1.trans hc.2.1
  have hclen : T1.connections.length = conns.length := hp.2.2.trans hc.2.2
  have hcell := reset_control_lengths_cell T1
    (by rw [hctrl]; exact hnd)
    (by rw [hctrl, hclen]; exact hlt)
    (by rw [hctrl, hstart, List.length_map])
    i (by rw [hctrl]; exact hi)
  rw [hctrl] at hcell
  rw [hcell, hstart]
  exact getD_map_lt _ controls i hi 0 0

/-- Witness for C7: one control of rest length `5`, one accepted and one
rejected length change and a failing solve, then reset: the rest length is
`5` again. -/
theorem reset_restores_construction_lengths_witness :
    ((applyOps
        ⟨Tensegrity.construct [] [⟨[], [], ConnectionType.STRING, 1, 5, none, some "c"⟩]
          [] [0] none, 2, fun _ => 0⟩
        [SolverOp.change [2], SolverOp.solveOp (fun _ => none) [],
          SolverOp.change [3, 4]]).tensegrity.reset_control_lengths.connections.getD
        (([0] : List ℕ).getD 0 0) default).initial_length =
      (([⟨[], [], ConnectionType.STRING, 1, 5, none, some "c"⟩] : List Connection).getD
        (([0] : List ℕ).getD 0 0) default).initial_length :=
  reset_restores_construction_lengths []
    [⟨[], [], ConnectionType.STRING, 1, 5, none, some "c"⟩] [] [0] none 2 (fun _ => 0)
    [SolverOp.change [2], SolverOp.solveOp (fun _ => none) [],
      SolverOp.change [3, 4]]
    (by decide) (by decide) 0 (by decide)

/-! ### `set_forces` behaviour for C9 / C10 -/

/-- Slot slices of distinct node indices are disjoint: a coordinate slot
`a*d + ax` with `ax < d` lies in the slice of node `b` only when `a = b`. -/
lemma slot_slice_eq (a b ax d : ℕ) (hax : ax < d)
    (h1 : b * d ≤ a * d + ax) (h2 : a * d + ax < b * d + d) : a = b := by
  rcases lt_trichotomy a b with h | h | h
  · have hle : (a + 1) * d ≤ b * d := Nat.mul_le_mul_right d h
    rw [Nat.succ_mul] at hle
    omega
  · exact h
  · have hle : (b + 1) * d ≤ a * d := Nat.mul_le_mul_right d h
    rw [Nat.succ_mul] at hle
    omega

/-- When every entry's force vector has the right dimension, the
`set_forces` loop raises nothing. -/
lemma setForcesAux_valid (S : TensegritySolver) :
    ∀ (entries : List (String × List ℝ)) (F : ℕ → ℝ),
      (∀ e ∈ entries, e.2.length = S.dim) →
      (S.setForcesAux F entries).2 = none := by
  intro entries
  induction entries with
  | nil => intro F _; rfl
  | cons e rest ih =>
    intro F hval
    rw [TensegritySolver.setForcesAux,
      if_neg (fun hc => hc (hval e (List.mem_cons_self _ _)))]
    exact ih _ (fun q hq => hval q (List.mem_cons_of_mem _ hq))

/-- A coordinate slot outside every entry's slice is left as the loop found
it. -/
lemma setForcesAux_untouched (S : TensegritySolver) :
    ∀ (entries : List (String × List ℝ)) (F : ℕ → ℝ) (j : ℕ),
      (∀ e ∈ entries,
        ¬(S.nodeIdx e.1 * S.dim ≤ j ∧ j < S.nodeIdx e.1 * S.dim + S.dim)) →
      (S.setForcesAux F entries).1 j = F j := by
  intro entries
  induction entries with
  | nil => intro F j _; rfl
  | cons e rest ih =>
    intro F j h
    rw [TensegritySolver.setForcesAux]
    by_cases hv : e.2.length ≠ S.dim
    · rw [if_pos hv]
    · rw [if_neg hv]
      rw [ih _ j (fun q hq => h q (List.mem_cons_of_mem _ hq))]
      exact if_neg (h e (List.mem_cons_self _ _))

/-- With all entries valid and pairwise-distinct node indices, the loop
writes each entry's force components at that entry's slots. -/
lemma setForcesAux_written (S : TensegritySolver) :
    ∀ (entries : List (String × List ℝ)) (F : ℕ → ℝ),
      (∀ e ∈ entries, e.2.length = S.dim) →
      (entries.map (fun e => S.nodeIdx e.1)).Nodup →
      ∀ i, i < entries.length → ∀ ax, ax < S.dim →
        (S.setForcesAux F entries).1
          (S.nodeIdx (entries.getD i ("", [])).1 * S.dim + ax) =
          (entries.getD i ("", [])).2.getD ax 0 := by
  intro entries
  induction entries with
  | nil => intro F _ _ i hi; simp at hi
  | cons e rest ih =>
    intro F hval hnd i hi ax hax
    rw [List.map_cons, List.nodup_cons] at hnd
    rw [TensegritySolver.setForcesAux,
      if_neg (fun hc => hc (hval e (List.mem_cons_self _ _)))]
    cases i with
    | zero =>
      show (S.setForcesAux _ rest).1 (S.nodeIdx e.1 * S.dim + ax) = e.2.getD ax 0
      rw [setForcesAux_untouched S rest _ _ ?hdisj]
      · show sliceWrite S.dim (S.nodeIdx e.1 * S.dim) e.2 F _ = _
        rw [sliceWrite, if_pos ⟨Nat.le_add_right _ _, by omega⟩,
          Nat.add_sub_cancel_left]
      case hdisj =>
        intro q hq hcontra
        exact hnd.1 ((slot_slice_eq (S.nodeIdx e.1) (S.nodeIdx q.1) ax S.dim hax
          hcontra.1 hcontra.2) ▸ List.mem_map_of_mem (fun p => S.nodeIdx p.1) hq)
    | succ i0 =>
      show (S.setForcesAux _ rest).1
          (S.nodeIdx (rest.getD i0 ("", [])).1 * S.dim + ax) =
          (rest.getD i0 ("", [])).2.getD ax 0
      exact ih _ (fun q hq => hval q (List.mem_cons_of_mem _ hq)) hnd.2 i0
        (by simpa using hi) ax hax

/-- An entry with a wrong-dimension force vector makes the loop raise. -/
lemma setForcesAux_invalid (S : TensegritySolver) :
    ∀ (entries : List (String × List ℝ)) (F : ℕ → ℝ),
      (∃ e ∈ entries, e.2.length ≠ S.dim) →
      (S.setForcesAux F entries).2 ≠ none := by
  intro entries
  induction entries with
  | nil => intro F h; simp at h
  | cons e rest ih =>
    intro F h
    rw [TensegritySolver.setForcesAux]
    by_cases hv : e.2.length ≠ S.dim
    · rw [if_pos hv]
      simp
    · rw [if_neg hv]
      rcases h with ⟨q, hq, hqv⟩
      rcases List.mem_cons.mp hq with rfl | hqrest
      · exact absurd hqv (by simpa using hv)
      · exact ih _ ⟨q, hqrest, hqv⟩

/-- The loop over a fully valid prefix threads its written vector into the
remainder of the loop. -/
lemma setForcesAux_append_valid (S : TensegritySolver) :
    ∀ (pre : List (String × List ℝ)) (F : ℕ → ℝ) (l : List (String × List ℝ)),
      (∀ e ∈ pre, e.2.length = S.dim) →
      S.setForcesAux F (pre ++ l) = S.setForcesAux (S.setForcesAux F pre).1 l := by
  intro pre
  induction pre with
  | nil => intro F l _; rfl
  | cons e rest ih =>
    intro F l hval
    rw [List.cons_append, TensegritySolver.setForcesAux,
      if_neg (fun hc => hc (hval e (List.mem_cons_self _ _))),
      ih _ l (fun q hq => hval q (List.mem_cons_of_mem _ hq))]
    congr 1
    rw [TensegritySolver.setForcesAux,
      if_neg (fun hc => hc (hval e (List.mem_cons_self _ _)))]

/-- The `set_forces` loop reads only the solver's structure and dimension,
never its previously stored force vector. -/
lemma setForcesAux_forces_irrel (T : Tensegrity) (d : ℕ) (F0 G : ℕ → ℝ) :
    ∀ (l : List (String × List ℝ)) (F : ℕ → ℝ),
      TensegritySolver.setForcesAux ⟨T, d, F0⟩ F l =
        TensegritySolver.setForcesAux ⟨T, d, G⟩ F l := by
  intro l
  induction l with
  | nil => intro F; rfl
  | cons e rest ih =>
    intro F
    rw [TensegritySolver.setForcesAux, TensegritySolver.setForcesAux]
    by_cases hv : e.2.length ≠ (⟨T, d, F0⟩ : TensegritySolver).dim
    · rw [if_pos hv, if_pos hv]
    · rw [if_neg hv, if_neg hv, ih]
      rfl

/-- C9: a successful `set_forces` call replaces the whole external-force
vector: every named node ends with exactly the supplied components at its
slots, every slot outside the named slices is zero regardless of previous
calls, and a force vector of the wrong dimension raises a ValueError. -/
theorem set_forces_replaces (S : TensegritySolver)
    (entries : List (String × List ℝ))
    (hnd : (entries.map (fun e => S.nodeIdx e.1)).Nodup) :
    ((∀ e ∈ entries, e.2.length = S.dim) → (S.set_forces entries).2 = none)
    ∧ ((∀ e ∈ entries, e.2.length = S.dim) →
        ∀ i, i < entries.length → ∀ ax, ax < S.dim →
          (S.set_forces entries).1.forces
            (S.nodeIdx (entries.getD i ("", [])).1 * S.dim + ax) =
            (entries.getD i ("", [])).2.getD ax 0)
    ∧ (∀ j, (∀ e ∈ entries,
          ¬(S.nodeIdx e.1 * S.dim ≤ j ∧ j < S.nodeIdx e.1 * S.dim + S.dim)) →
        (S.set_forces entries).1.forces j = 0)
    ∧ ((∃ e ∈ entries, e.2.length ≠ S.dim) → (S.set_forces entries).2 ≠ none) := by
  refine ⟨?_, ?_, ?_, ?_⟩
  · intro hval
    exact setForcesAux_valid S entries _ hval
  · intro hval i hi ax hax
    exact setForcesAux_written S entries _ hval hnd i hi ax hax
  · intro j hj
    exact setForcesAux_untouched S entries _ j hj
  · intro hbad
    exact setForcesAux_invalid S entries _ hbad

/-- Witness for C9: a valid one-entry mapping on a two-node solver raises
nothing. -/
theorem set_forces_replaces_witness :
    (TensegritySolver.set_forces
      ⟨⟨[⟨"A", [0, 0]⟩, ⟨"B", [1, 0]⟩], [], [], [], none, []⟩, 2, fun _ => 7⟩
      [("B", [3, 4])]).2 = none :=
  (set_forces_replaces
    ⟨⟨[⟨"A", [0, 0]⟩, ⟨"B", [1, 0]⟩], [], [], [], none, []⟩, 2, fun _ => 7⟩
    [("B", [3, 4])] (by decide)).1 (by decide)

/-- C10: `set_forces` is not atomic on error: when the first invalid entry
is reached, the raise leaves the solver's force vector equal to the
all-zeros vector overwritten by the valid prefix — independent of whatever
force vector was stored before the call, which is therefore lost. -/
theorem set_forces_error_discards_previous (S : TensegritySolver)
    (pre : List (String × List ℝ)) (bad : String × List ℝ)
    (rest : List (String × List ℝ))
    (hpre : ∀ e ∈ pre, e.2.length = S.dim) (hbad : bad.2.length ≠ S.dim) :
    (S.set_forces (pre ++ bad :: rest)).2 =
      some "Force vector must have the same dimension as the optimization problem."
    ∧ (S.set_forces (pre ++ bad :: rest)).1.forces =
        (S.setForcesAux (fun _ => 0) pre).1
    ∧ (∀ G : ℕ → ℝ,
        (TensegritySolver.set_forces ⟨S.tensegrity, S.dim, G⟩
          (pre ++ bad :: rest)).1.forces =
          (S.set_forces (pre ++ bad :: rest)).1.forces) := by
  have hrun : S.setForcesAux (fun _ => 0) (pre ++ bad :: rest) =
      ((S.setForcesAux (fun _ => 0) pre).1,
        some "Force vector must have the same dimension as the optimization problem.") := by
    rw [setForcesAux_append_valid S pre _ _ hpre, TensegritySolver.setForcesAux,
      if_pos hbad]
  refine ⟨?_, ?_, ?_⟩
  · show (S.setForcesAux (fun _ => 0) (pre ++ bad :: rest)).2 = _
    rw [hrun]
  · show (S.setForcesAux (fun _ => 0) (pre ++ bad :: rest)).1 = _
    rw [hrun]
  · intro G
    show (TensegritySolver.setForcesAux ⟨S.tensegrity, S.dim, G⟩
        (fun _ => 0) (pre ++ bad :: rest)).1 =
      (S.setForcesAux (fun _ => 0) (pre ++ bad :: rest)).1
    obtain ⟨T, d, F0⟩ := S
    rw [setForcesAux_forces_irrel T d G F0]

/-- Witness for C10: with a stored force vector of constant `7`, a call
whose second entry has a 1-component force raises and leaves the forces as
zeros overwritten by the first entry only. -/
theorem set_forces_error_discards_previous_witness :
    (TensegritySolver.set_forces
      ⟨⟨[⟨"A", [0, 0]⟩, ⟨"B", [1, 0]⟩], [], [], [], none, []⟩, 2, fun _ => 7⟩
      ([("A", [1, 2])] ++ ("B", [9]) :: [])).2 =
      some "Force vector must have the same dimension as the optimization problem." :=
  (set_forces_error_discards_previous
    ⟨⟨[⟨"A", [0, 0]⟩, ⟨"B", [1, 0]⟩], [], [], [], none, []⟩, 2, fun _ => 7⟩
    [("A", [1, 2])] ("B", [9]) [] (by decide) (by decide)).1

/-! ### Delete-index bookkeeping of `_objective` for C2 -/

/-- An x-coordinate slot is never a y-coordinate slot (`dim ≥ 2`). -/
lemma xslot_ne_yslot (dim a b : ℕ) (hdim : 2 ≤ dim) : a * dim ≠ b * dim + 1 := by
  intro h
  have h1 : a * dim % dim = 0 := Nat.mul_mod_left a dim
  have h2 : (b * dim + 1) % dim = 1 := by
    rw [Nat.add_comm, Nat.add_mul_mod_self_right]
    exact Nat.mod_eq_of_lt (by omega)
  rw [h] at h1
  omega

/-- x-coordinate slots of different nodes differ. -/
lemma xslot_inj (dim a b : ℕ) (hdim : 1 ≤ dim) (h : a * dim = b * dim) : a = b :=
  Nat.eq_of_mul_eq_mul_right (by omega) h

/-- y-coordinate slots of different nodes differ. -/
lemma yslot_inj (dim a b : ℕ) (hdim : 1 ≤ dim) (h : a * dim + 1 = b * dim + 1) :
    a = b :=
  xslot_inj dim a b hdim (by omega)

/-- The delete-set component of one linked-pair loop iteration equals the
index-only step on the resolved node indices: which rows get deleted never
depends on the virtual-work values. -/
lemma surfaceStep_snd (S : TensegritySolver) (acc : (ℕ → ℝ) × Finset ℕ)
    (pr : String × String) :
    (S.surfaceStep acc pr).2 = TensegritySolver.dStep S.dim acc.2 (S.nodeIdx pr.1, S.nodeIdx pr.2) := by
  unfold TensegritySolver.surfaceStep TensegritySolver.dStep
  dsimp only
  split_ifs <;> rfl

/-- The delete-set component of the whole linked-pair loop. -/
lemma surfaceFold_snd (S : TensegritySolver) :
    ∀ (pairs : List (String × String)) (acc : (ℕ → ℝ) × Finset ℕ),
      (pairs.foldl S.surfaceStep acc).2 =
        (pairs.map (fun pr => (S.nodeIdx pr.1, S.nodeIdx pr.2))).foldl
          (TensegritySolver.dStep S.dim) acc.2 := by
  intro pairs
  induction pairs with
  | nil => intro acc; rfl
  | cons pr tl ih =>
    intro acc
    rw [List.foldl_cons, List.map_cons, List.foldl_cons, ih, surfaceStep_snd]

/-- With at most one of the pair's two coordinates deleted on each coupled
axis, one `dStep` inserts exactly one fresh x slot and one fresh y slot of
the pair. -/
lemma dStep_decomp (dim : ℕ) (hdim : 2 ≤ dim) (D : Finset ℕ) (pr : ℕ × ℕ)
    (hx : ¬(pr.1 * dim ∈ D ∧ pr.2 * dim ∈ D))
    (hy : ¬(pr.1 * dim + 1 ∈ D ∧ pr.2 * dim + 1 ∈ D)) :
    ∃ s t, (s = pr.1 * dim ∨ s = pr.2 * dim) ∧
      (t = pr.1 * dim + 1 ∨ t = pr.2 * dim + 1) ∧
      s ∉ D ∧ t ∉ D ∧ t ≠ s ∧ TensegritySolver.dStep dim D pr = insert t (insert s D) := by
  have hstep : ∃ s, (s = pr.1 * dim ∨ s = pr.2 * dim) ∧ s ∉ D ∧
      (if pr.1 * dim ∈ D then insert (pr.2 * dim) D
        else if pr.2 * dim ∈ D then insert (pr.1 * dim) D
        else insert (pr.2 * dim) D) = insert s D := by
    by_cases h1 : pr.1 * dim ∈ D
    · exact ⟨pr.2 * dim, Or.inr rfl, fun hc => hx ⟨h1, hc⟩, by rw [if_pos h1]⟩
    · by_cases h2 : pr.2 * dim ∈ D
      · exact ⟨pr.1 * dim, Or.inl rfl, h1, by rw [if_neg h1, if_pos h2]⟩
      · exact ⟨pr.2 * dim, Or.inr rfl, h2, by rw [if_neg h1, if_neg h2]⟩
  obtain ⟨s, hsor, hsD, hseq⟩ := hstep
  have hys : ∀ c : ℕ, c * dim + 1 ∈ insert s D ↔ c * dim + 1 ∈ D := by
    intro c
    rw [Finset.mem_insert]
    constructor
    · intro hmem
      rcases hmem with h | h
      · exfalso
        rcases hsor with rfl | rfl
        · exact xslot_ne_yslot dim pr.1 c hdim h.symm
        · exact xslot_ne_yslot dim pr.2 c hdim h.symm
      · exact h
    · exact Or.inr
  have hyt : ∃ t, (t = pr.1 * dim + 1 ∨ t = pr.2 * dim + 1) ∧ t ∉ D ∧
      (if pr.1 * dim + 1 ∈ insert s D then insert (pr.2 * dim + 1) (insert s D)
        else if pr.2 * dim + 1 ∈ insert s D then insert (pr.1 * dim + 1) (insert s D)
        else insert (pr.2 * dim + 1) (insert s D)) =
        insert t (insert s D) := by
    by_cases h1 : pr.1 * dim + 1 ∈ insert s D
    · exact ⟨pr.2 * dim + 1, Or.inr rfl,
        fun hc => hy ⟨(hys pr.1).mp h1, hc⟩, by rw [if_pos h1]⟩
    · by_cases h2 : pr.2 * dim + 1 ∈ insert s D
      · exact ⟨pr.1 * dim + 1, Or.inl rfl,
          fun hc => h1 ((hys pr.1).mpr hc), by rw [if_neg h1, if_pos h2]⟩
      · exact ⟨pr.2 * dim + 1, Or.inr rfl,
          fun hc => h2 ((hys pr.2).mpr hc), by rw [if_neg h1, if_neg h2]⟩
  obtain ⟨t, htor, htD, hteq⟩ := hyt
  refine ⟨s, t, hsor, htor, hsD, htD, ?_, ?_⟩
  · rcases htor with rfl | rfl <;> rcases hsor with rfl | rfl <;>
      exact fun hc => xslot_ne_yslot dim _ _ hdim hc.symm
  · unfold TensegritySolver.dStep
    dsimp only
    rw [hseq]
    exact hteq

/-- Any index in the output of a `dStep` is in the input set or one of the
pair's four slots. -/
lemma dStep_subset (dim : ℕ) (D : Finset ℕ) (pr : ℕ × ℕ) :
    ∀ j ∈ TensegritySolver.dStep dim D pr, j ∈ D ∨ j = pr.1 * dim ∨
      j = pr.2 * dim ∨ j = pr.1 * dim + 1 ∨ j = pr.2 * dim + 1 := by
  unfold TensegritySolver.dStep
  dsimp only
  intro j
  split_ifs <;> intro hj <;> simp only [Finset.mem_insert] at hj <;> tauto

/-- Every index ever deleted by the linked-pair loop stays below the full
coordinate count. -/
lemma dFold_subset (dim : ℕ) :
    ∀ (prs : List (ℕ × ℕ)) (D : Finset ℕ) (M : ℕ),
      (∀ j ∈ D, j < M) →
      (∀ p ∈ prs, p.1 * dim + 1 < M ∧ p.2 * dim + 1 < M) →
      ∀ j ∈ prs.foldl (TensegritySolver.dStep dim) D, j < M := by
  intro prs
  induction prs with
  | nil => intro D M hD _ j hj; exact hD j hj
  | cons p tl ih =>
    intro D M hD hsl j hj
    rw [List.foldl_cons] at hj
    refine ih (TensegritySolver.dStep dim D p) M ?_
      (fun q hq => hsl q (List.mem_cons_of_mem _ hq)) j hj
    intro k hk
    rcases dStep_subset dim D p k hk with h | h | h | h | h
    · exact hD k h
    · have := (hsl p (List.mem_cons_self _ _)).1; omega
    · have := (hsl p (List.mem_cons_self _ _)).2; omega
    · have := (hsl p (List.mem_cons_self _ _)).1; omega
    · have := (hsl p (List.mem_cons_self _ _)).2; omega

/-- With node-disjoint pairs whose coupled coordinates are not both already
deleted, the linked-pair loop grows the delete set by exactly two indices
per pair. -/
lemma dFold_card (dim : ℕ) (hdim : 2 ≤ dim) :
    ∀ (prs : List (ℕ × ℕ)) (D : Finset ℕ),
      (∀ p ∈ prs, ¬(p.1 * dim ∈ D ∧ p.2 * dim ∈ D) ∧
        ¬(p.1 * dim + 1 ∈ D ∧ p.2 * dim + 1 ∈ D)) →
      List.Pairwise (fun p q => p.1 ≠ q.1 ∧ p.1 ≠ q.2 ∧ p.2 ≠ q.1 ∧ p.2 ≠ q.2) prs →
      (prs.foldl (TensegritySolver.dStep dim) D).card = D.card + 2 * prs.length := by
  intro prs
  induction prs with
  | nil => intro D _ _; simp
  | cons p tl ih =>
    intro D hcond hpw
    obtain ⟨s, t, hsor, htor, hsD, htD, hts, heq⟩ :=
      dStep_decomp dim hdim D p (hcond p (List.mem_cons_self _ _)).1
        (hcond p (List.mem_cons_self _ _)).2
    rw [List.foldl_cons, heq]
    have hmem_iff : ∀ j, j ≠ s → j ≠ t → (j ∈ insert t (insert s D) ↔ j ∈ D) := by
      intro j hjs hjt
      rw [Finset.mem_insert, Finset.mem_insert]
      constructor
      · rintro (h | h | h)
        · exact absurd h hjt
        · exact absurd h hjs
        · exact h
      · exact fun h => Or.inr (Or.inr h)
    have hcond' : ∀ q ∈ tl,
        ¬(q.1 * dim ∈ insert t (insert s D) ∧ q.2 * dim ∈ insert t (insert s D)) ∧
        ¬(q.1 * dim + 1 ∈ insert t (insert s D) ∧
          q.2 * dim + 1 ∈ insert t (insert s D)) := by
      intro q hq
      have hne := (List.pairwise_cons.mp hpw).1 q hq
      have hq1 : q.1 ≠ p.1 := fun h => hne.1 h.symm
      have hq2 : q.1 ≠ p.2 := fun h => hne.2.2.1 h.symm
      have hq3 : q.2 ≠ p.1 := fun h => hne.2.1 h.symm
      have hq4 : q.2 ≠ p.2 := fun h => hne.2.2.2 h.symm
      have hx1s : q.1 * dim ≠ s := by
        rcases hsor with rfl | rfl
        · exact fun h => hq1 (xslot_inj dim q.1 p.1 (by omega) h)
        · exact fun h => hq2 (xslot_inj dim q.1 p.2 (by omega) h)
      have hx2s : q.2 * dim ≠ s := by
        rcases hsor with rfl | rfl
        · exact fun h => hq3 (xslot_inj dim q.2 p.1 (by omega) h)
        · exact fun h => hq4 (xslot_inj dim q.2 p.2 (by omega) h)
      have hx1t : q.1 * dim ≠ t := by
        rcases htor with rfl | rfl <;> exact xslot_ne_yslot dim q.1 _ hdim
      have hx2t : q.2 * dim ≠ t := by
        rcases htor with rfl | rfl <;> exact xslot_ne_yslot dim q.2 _ hdim
      have hy1s : q.1 * dim + 1 ≠ s := by
        rcases hsor with rfl | rfl <;>
          exact fun h => xslot_ne_yslot dim _ q.1 hdim h.symm
      have hy2s : q.2 * dim + 1 ≠ s := by
        rcases hsor with rfl | rfl <;>
          exact fun h => xslot_ne_yslot dim _ q.2 hdim h.symm
      have hy1t : q.1 * dim + 1 ≠ t := by
        rcases htor with rfl | rfl
        · exact fun h => hq1 (yslot_inj dim q.1 p.1 (by omega) h)
        · exact fun h => hq2 (yslot_inj dim q.1 p.2 (by omega) h)
      have hy2t : q.2 * dim + 1 ≠ t := by
        rcases htor with rfl | rfl
        · exact fun h => hq3 (yslot_inj dim q.2 p.1 (by omega) h)
        · exact fun h => hq4 (yslot_inj dim q.2 p.2 (by omega) h)
      rw [hmem_iff _ hx1s hx1t, hmem_iff _ hx2s hx2t,
        hmem_iff _ hy1s hy1t, hmem_iff _ hy2s hy2t]
      exact hcond q (List.mem_cons_of_mem _ hq)
    rw [ih (insert t (insert s D)) hcond' (List.pairwise_cons.mp hpw).2,
      Finset.card_insert_of_not_mem
        (by rw [Finset.mem_insert]; push_neg; exact ⟨hts, htD⟩),
      Finset.card_insert_of_not_mem hsD, List.length_cons]
    ring

/-- Length of an `np.delete` on an array of length `M` expressed over the
index range, for a delete set inside the range. -/
lemma length_filter_not_mem (M : ℕ) (D : Finset ℕ) (hD : ∀ j ∈ D, j < M) :
    ((List.range M).filter (fun j => decide (j ∉ D))).length = M - D.card := by
  have hnd : ((List.range M).filter (fun j => decide (j ∉ D))).Nodup :=
    (List.nodup_range M).filter _
  rw [← List.toFinset_card_of_nodup hnd, List.toFinset_filter]
  have hr : (List.range M).toFinset = Finset.range M := by ext j; simp
  rw [hr]
  have hfe : (Finset.range M).filter (fun j => decide (j ∉ D) = true) =
      Finset.range M \ D := by
    ext j
    simp [Finset.mem_sdiff]
  rw [hfe, Finset.card_sdiff (fun j hj => Finset.mem_range.mpr (hD j hj)),
    Finset.card_range]

/-- The cylinder surface appends exactly two constraint values per linked
pair. -/
lemma surface_constraints_length (S : TensegritySolver) (surf : Surface)
    (hs : S.tensegrity.surface = some surf)
    (hcyl : surf.shape.surface_type = "cylinder") (x : List ℝ) :
    (S.surface_constraints x).length = 2 * surf.linked_nodes.length := by
  unfold TensegritySolver.surface_constraints
  rw [hs]
  show (if surf.shape.surface_type = "cylinder" then _ else []).length = _
  rw [if_pos hcyl, List.length_flatMap]
  have hgen : ∀ (l : List (String × String)) (f : String × String → List ℝ),
      (∀ pr, (f pr).length = 2) →
      (List.map (List.length ∘ f) l).sum = 2 * l.length := by
    intro l f hf
    induction l with
    | nil => simp
    | cons a as ih =>
      rw [List.map_cons, List.sum_cons, ih]
      simp only [Function.comp, hf a, List.length_cons]
      ring
  exact hgen surf.linked_nodes _ (fun pr => rfl)

/-- The `_objective` residual when a surface is present, with the loop state
spelled out. -/
lemma objective_surface_eq (S : TensegritySolver) (x : List ℝ) (surf : Surface)
    (hs : S.tensegrity.surface = some surf) :
    S.objective x =
      (((List.range (S.dim * S.tensegrity.nodes.length)).filter
        (fun j => decide (j ∉
          (surf.linked_nodes.foldl S.surfaceStep
            (S.objectiveVW x, S.pinSlots.toFinset)).2))).map
        (surf.linked_nodes.foldl S.surfaceStep
          (S.objectiveVW x, S.pinSlots.toFinset)).1)
      ++ S.surface_constraints x := by
  unfold TensegritySolver.objective
  rw [hs]

/-- A coordinate slot with offset 1 of a valid node stays inside the full
coordinate range (`dim ≥ 2`). -/
lemma slot1_lt (dim a n : ℕ) (hdim : 2 ≤ dim) (ha : a < n) :
    a * dim + 1 < dim * n := by
  have h1 : a * dim + dim ≤ n * dim := by
    have h2 := Nat.mul_le_mul_right dim (Nat.succ_le_of_lt ha)
    rw [Nat.succ_mul] at h2
    exact h2
  rw [Nat.mul_comm dim n]
  omega

/-- C2 (amended): for a Tensegrity with a cylindrical Surface whose linked
pairs are pairwise node-disjoint and, on each coupled axis, have at most
one of the pair's two seam coordinates pinned, the residual returned by
`_objective` has length `dim·|nodes| − #pinned coordinate axes`: each
linked pair then removes exactly 2 rows beyond the pin removals and appends
exactly 2 constraint rows.  (When both seam coordinates of some pair on an
axis are pinned, the pair removes fewer rows but still appends 2, and the
count fails — see the counterexample.) -/
theorem objective_length_dof (S : TensegritySolver) (surf : Surface) (x : List ℝ)
    (hs : S.tensegrity.surface = some surf)
    (hcyl : surf.shape.surface_type = "cylinder")
    (hdim : 2 ≤ S.dim)
    (hnd : S.pinSlots.Nodup)
    (hplt : ∀ s ∈ S.pinSlots, s < S.dim * S.tensegrity.nodes.length)
    (hpairlt : ∀ pr ∈ surf.linked_nodes,
      S.nodeIdx pr.1 < S.tensegrity.nodes.length ∧
      S.nodeIdx pr.2 < S.tensegrity.nodes.length)
    (hdisj : List.Pairwise (fun p q => p.1 ≠ q.1 ∧ p.1 ≠ q.2 ∧ p.2 ≠ q.1 ∧ p.2 ≠ q.2)
      (surf.linked_nodes.map (fun pr => (S.nodeIdx pr.1, S.nodeIdx pr.2))))
    (hnotboth : ∀ pr ∈ surf.linked_nodes,
      ¬(S.nodeIdx pr.1 * S.dim ∈ S.pinSlots.toFinset ∧
        S.nodeIdx pr.2 * S.dim ∈ S.pinSlots.toFinset) ∧
      ¬(S.nodeIdx pr.1 * S.dim + 1 ∈ S.pinSlots.toFinset ∧
        S.nodeIdx pr.2 * S.dim + 1 ∈ S.pinSlots.toFinset)) :
    (S.objective x).length + S.pinSlots.length =
      S.dim * S.tensegrity.nodes.length := by
  rw [objective_surface_eq S x surf hs, List.length_append, List.length_map,
    surface_constraints_length S surf hs hcyl x,
    surfaceFold_snd S surf.linked_nodes (S.objectiveVW x, S.pinSlots.toFinset)]
  have hD0lt : ∀ j ∈ S.pinSlots.toFinset,
      j < S.dim * S.tensegrity.nodes.length :=
    fun j hj => hplt j (List.mem_toFinset.mp hj)
  have hprslt : ∀ p ∈ surf.linked_nodes.map
      (fun pr => (S.nodeIdx pr.1, S.nodeIdx pr.2)),
      p.1 * S.dim + 1 < S.dim * S.tensegrity.nodes.length ∧
      p.2 * S.dim + 1 < S.dim * S.tensegrity.nodes.length := by
    intro p hp
    rw [List.mem_map] at hp
    obtain ⟨pr, hpr, rfl⟩ := hp
    exact ⟨slot1_lt S.dim _ _ hdim (hpairlt pr hpr).1,
      slot1_lt S.dim _ _ hdim (hpairlt pr hpr).2⟩
  have hcond : ∀ p ∈ surf.linked_nodes.map
      (fun pr => (S.nodeIdx pr.1, S.nodeIdx pr.2)),
      ¬(p.1 * S.dim ∈ S.pinSlots.toFinset ∧ p.2 * S.dim ∈ S.pinSlots.toFinset) ∧
      ¬(p.1 * S.dim + 1 ∈ S.pinSlots.toFinset ∧
        p.2 * S.dim + 1 ∈ S.pinSlots.toFinset) := by
    intro p hp
    rw [List.mem_map] at hp
    obtain ⟨pr, hpr, rfl⟩ := hp
    exact hnotboth pr hpr
  have hbound := dFold_subset S.dim
    (surf.linked_nodes.map (fun pr => (S.nodeIdx pr.1, S.nodeIdx pr.2)))
    S.pinSlots.toFinset (S.dim * S.tensegrity.nodes.length) hD0lt hprslt
  have hcard := dFold_card S.dim hdim
    (surf.linked_nodes.map (fun pr => (S.nodeIdx pr.1, S.nodeIdx pr.2)))
    S.pinSlots.toFinset hcond hdisj
  rw [length_filter_not_mem _ _ hbound, hcard]
  have hsub : ((surf.linked_nodes.map
      (fun pr => (S.nodeIdx pr.1, S.nodeIdx pr.2))).foldl
        (TensegritySolver.dStep S.dim) S.pinSlots.toFinset) ⊆
      Finset.range (S.dim * S.tensegrity.nodes.length) :=
    fun j hj => Finset.mem_range.mpr (hbound j hj)
  have hle := Finset.card_le_card hsub
  rw [Finset.card_range, hcard] at hle
  have hpincard : S.pinSlots.toFinset.card = S.pinSlots.length :=
    List.toFinset_card_of_nodup hnd
  rw [hpincard] at hle ⊢
  simp only [List.length_map] at hle ⊢
  omega

/-- Counterexample to C2 as stated: two nodes pinned in x forming one
linked pair on a cylinder.  Both seam x coordinates are pinned, so the
x half of the pair deletes no additional row, yet two constraint rows are
still appended: the residual has 3 rows, not
`dim·|nodes| − #pins = 4 − 2 = 2`. -/
theorem objective_length_dof_cex :
    (TensegritySolver.objective
      ⟨⟨[⟨"A", [0, 0]⟩, ⟨"B", [0, 0]⟩], [],
        [("A", [true, false]), ("B", [true, false])], [],
        some ⟨⟨"cylinder", 1⟩, [("A", "B")]⟩, []⟩, 2, fun _ => 0⟩ [0, 0]).length ≠
      (⟨⟨[⟨"A", [0, 0]⟩, ⟨"B", [0, 0]⟩], [],
        [("A", [true, false]), ("B", [true, false])], [],
        some ⟨⟨"cylinder", 1⟩, [("A", "B")]⟩, []⟩, 2, fun _ => 0⟩ :
          TensegritySolver).dim *
        (⟨⟨[⟨"A", [0, 0]⟩, ⟨"B", [0, 0]⟩], [],
          [("A", [true, false]), ("B", [true, false])], [],
          some ⟨⟨"cylinder", 1⟩, [("A", "B")]⟩, []⟩, 2, fun _ => 0⟩ :
            TensegritySolver).tensegrity.nodes.length -
        (⟨⟨[⟨"A", [0, 0]⟩, ⟨"B", [0, 0]⟩], [],
          [("A", [true, false]), ("B", [true, false])], [],
          some ⟨⟨"cylinder", 1⟩, [("A", "B")]⟩, []⟩, 2, fun _ => 0⟩ :
            TensegritySolver).pinSlots.length := by
  intro h
  have hL : (TensegritySolver.objective
      ⟨⟨[⟨"A", [0, 0]⟩, ⟨"B", [0, 0]⟩], [],
        [("A", [true, false]), ("B", [true, false])], [],
        some ⟨⟨"cylinder", 1⟩, [("A", "B")]⟩, []⟩, 2, fun _ => 0⟩ [0, 0]).length = 3 := by
    rfl
  rw [hL] at h
  exact absurd h (by decide)

/-- Witness for the amended C2: the same cylinder seam with only one of the
two seam x coordinates pinned satisfies the DOF count. -/
theorem objective_length_dof_witness :
    (TensegritySolver.objective
      ⟨⟨[⟨"A", [0, 0]⟩, ⟨"B", [0, 0]⟩], [], [("A", [true, false])], [],
        some ⟨⟨"cylinder", 1⟩, [("A", "B")]⟩, []⟩, 2, fun _ => 0⟩ []).length +
      (⟨⟨[⟨"A", [0, 0]⟩, ⟨"B", [0, 0]⟩], [], [("A", [true, false])], [],
        some ⟨⟨"cylinder", 1⟩, [("A", "B")]⟩, []⟩, 2, fun _ => 0⟩ :
          TensegritySolver).pinSlots.length =
      (⟨⟨[⟨"A", [0, 0]⟩, ⟨"B", [0, 0]⟩], [], [("A", [true, false])], [],
        some ⟨⟨"cylinder", 1⟩, [("A", "B")]⟩, []⟩, 2, fun _ => 0⟩ :
          TensegritySolver).dim *
        (⟨⟨[⟨"A", [0, 0]⟩, ⟨"B", [0, 0]⟩], [], [("A", [true, false])], [],
          some ⟨⟨"cylinder", 1⟩, [("A", "B")]⟩, []⟩, 2, fun _ => 0⟩ :
            TensegritySolver).tensegrity.nodes.length :=
  objective_length_dof
    ⟨⟨[⟨"A", [0, 0]⟩, ⟨"B", [0, 0]⟩], [], [("A", [true, false])], [],
      some ⟨⟨"cylinder", 1⟩, [("A", "B")]⟩, []⟩, 2, fun _ => 0⟩
    ⟨⟨"cylinder", 1⟩, [("A", "B")]⟩ [] rfl rfl (by decide) (by decide)
    (by decide) (by decide) (by decide) (by decide)

end TensegritySim
